import Mathlib

/-!
Verification of the graph-composition core of `CompositeFunction.h`
(CNTK v2 library).  The data model and the operations are shallowly
embedded from the source: primitive functions are identified by natural
numbers, a `Variable` mirrors the fields the header reads (identity,
kind, owner of an Output), and a `Graph` gives each function its ordered
input list (`Function::Inputs()`).  The recursive `Traverse` is embedded
with an explicit fuel argument (the C++ recursion has no fuel; the fuel
models the call stack, and a sufficiency theorem shows that any fuel
beyond the size of a closed universe of nodes never runs out, which is
the termination claim for finite graphs).
-/

namespace CNTK

/-- The kind of a `Variable` (`VariableKind` in the library):
input, output, learnable weight, constant, or a placeholder awaiting
substitution. -/
inductive VarKind where
  | input
  | output
  | param
  | constant
  | placeholder
deriving DecidableEq, Repr

/-- A `Variable`: identified by `uid` (CNTK Variables are compared and
hashed by identity), with its kind and, when the kind is `output`, the
identifier of the owning primitive function (`Variable::Owner()`). -/
structure Variable where
  uid : Nat
  kind : VarKind
  owner : Nat := 0
deriving DecidableEq, Repr

/-- `Variable::IsOutput()`. -/
def Variable.IsOutput (v : Variable) : Prop := v.kind = VarKind.output

instance (v : Variable) : Decidable v.IsOutput :=
  inferInstanceAs (Decidable (v.kind = VarKind.output))

/-- The function graph: `inputs f` is the ordered input list returned by
`f->Inputs()` for the primitive function with identifier `f`. -/
structure Graph where
  inputs : Nat → List Variable

/-- The owners of the Output inputs of `f`: the nodes one step below `f`
in the graph (the nodes `Traverse` may recurse into from `f`). -/
def succs (G : Graph) (f : Nat) : List Nat :=
  (G.inputs f).filterMap (fun v => if v.kind = VarKind.output then some v.owner else none)

/-- Reachability from `f` by repeatedly following input-Variable
Output→Owner edges. -/
inductive Reachable (G : Graph) : Nat → Nat → Prop where
  | refl (f : Nat) : Reachable G f f
  | head {f g h : Nat} : g ∈ succs G f → Reachable G g h → Reachable G f h

/-- The loop body of `CompositeFunction::Traverse` (lines 118-126 of the
header): iterate over the remaining input Variables of the node being
visited; for an input that `IsOutput()` and whose `Owner()` is not in
`visitedFunctions`, recurse (`rec`) into the owner.  The recursive call
into `Traverse` itself is abstracted as the parameter `rec` so that the
fuel-indexed `TraverseAux` below can pass itself one fuel level down. -/
def TraverseList {σ : Type} (rec : Nat → Finset Nat → σ → Option (Finset Nat × σ)) :
    List Variable → Finset Nat → σ → Option (Finset Nat × σ)
  | [], visited, s => some (visited, s)
  | rootInput :: rest, visited, s =>
    if rootInput.kind = VarKind.output ∧ rootInput.owner ∉ visited then
      match rec rootInput.owner visited s with
      | none => none
      | some (visited2, s2) => TraverseList rec rest visited2 s2
    else
      TraverseList rec rest visited s

/-- `CompositeFunction::Traverse(rootFunction, visitedFunctions, functor)`
(header lines 112-127), fuel-indexed.  It inserts the root into
`visitedFunctions`, invokes the functor on the root (unconditionally,
exactly as the C++ does), and then walks the root's inputs recursing into
the owner of every not-yet-visited Output input.  The functor is modelled
as a state transformer `Nat → σ → σ` applied to a threaded state, which
captures an arbitrary effectful C++ functor. -/
def TraverseAux {σ : Type} (G : Graph) (functor : Nat → σ → σ) :
    Nat → Nat → Finset Nat → σ → Option (Finset Nat × σ)
  | 0, _, _, _ => none
  | fuel + 1, rootFunction, visitedFunctions, s =>
    TraverseList (fun r v t => TraverseAux G functor fuel r v t) (G.inputs rootFunction)
      (insert rootFunction visitedFunctions) (functor rootFunction s)

/-- The public two-argument `Traverse` overload (header lines 104-109):
starts from a freshly created empty visited set. -/
def Traverse {σ : Type} (G : Graph) (functor : Nat → σ → σ) (fuel rootFunction : Nat)
    (s : σ) : Option (Finset Nat × σ) :=
  TraverseAux G functor fuel rootFunction ∅ s

/-- `CompositeFunction::Collect(rootFunction, functions)` (header lines
165-169): `Traverse` with a functor that does nothing, returning the
populated set of functions. -/
def Collect (G : Graph) (fuel rootFunction : Nat) (functions : Finset Nat) :
    Option (Finset Nat) :=
  (TraverseAux G (fun _ s => s) fuel rootFunction functions ()).map Prod.fst

/-- The fields of a `CompositeFunction` object that the verified
operations touch: the root function and the owned node set
`m_allPrimitiveFunctions`. -/
structure CompositeFunction where
  rootFunction : Nat
  allPrimitiveFunctions : Finset Nat
deriving DecidableEq

/-- `CompositeFunction::Create(rootFunction, ...)` (header lines 67-75):
calls `Collect` on a fresh empty set and stores the result as the
composite's `m_allPrimitiveFunctions`. -/
def CompositeFunction.Create (G : Graph) (fuel rootFunction : Nat) :
    Option CompositeFunction :=
  (Collect G fuel rootFunction ∅).map
    (fun visitedFunctions => ⟨rootFunction, visitedFunctions⟩)

/-- The functor body used by `DetermineInputs` (header lines 177-187):
for every input of the visited function that is not an Output and not yet
in `uniqueInputs`, append it to `inputs` and record it in
`uniqueInputs`. -/
def DetermineInputsStep (G : Graph) (f : Nat)
    (s : List Variable × Finset Variable) : List Variable × Finset Variable :=
  (G.inputs f).foldl
    (fun t input =>
      if ¬ input.IsOutput ∧ input ∉ t.2 then (t.1 ++ [input], insert input t.2) else t)
    s

/-- `CompositeFunction::DetermineInputs(rootFunction, visitedFunctions)`
(header lines 172-190): traverses the graph collecting, in first-discovery
order and deduplicated by Variable identity, every input Variable that is
not an Output. -/
def DetermineInputs (G : Graph) (fuel rootFunction : Nat)
    (visitedFunctions : Finset Nat) : Option (List Variable) :=
  (TraverseAux G (DetermineInputsStep G) fuel rootFunction visitedFunctions
      ([], (∅ : Finset Variable))).map (fun r => r.2.1)

/-- `CompositeFunction::OnPlaceholdersReplaced` (header lines 132-150):
for every replaced placeholder whose replacement
(`placeholderReplacements.at(replacedPlaceholder)`) is an Output
Variable, `Collect` the graph underneath the replacement's owner into a
fresh set and union it into `m_allPrimitiveFunctions` (`owned`). -/
def OnPlaceholdersReplaced (G : Graph) (fuel : Nat)
    (placeholderReplacements : Variable → Variable) :
    List Variable → Finset Nat → Option (Finset Nat)
  | [], owned => some owned
  | replacedPlaceholder :: rest, owned =>
    let replacingVariable := placeholderReplacements replacedPlaceholder
    if replacingVariable.kind = VarKind.output then
      match Collect G fuel replacingVariable.owner ∅ with
      | none => none
      | some visitedFunctions2 =>
        OnPlaceholdersReplaced G fuel placeholderReplacements rest
          (owned ∪ visitedFunctions2)
    else
      OnPlaceholdersReplaced G fuel placeholderReplacements rest owned

/-- A small concrete graph used to instantiate the theorems: node 0
consumes the output of node 1 and a free input; node 1 consumes a
parameter and the same free input; every other id is an inputless node. -/
def exampleGraph : Graph :=
  ⟨fun f =>
    if f = 0 then [⟨10, VarKind.output, 1⟩, ⟨11, VarKind.input, 0⟩]
    else if f = 1 then [⟨12, VarKind.param, 0⟩, ⟨11, VarKind.input, 0⟩]
    else []⟩

/-- A concrete graph with a placeholder: node 0 consumes only a
placeholder; node 1 consumes a free input. -/
def exampleGraphPH : Graph :=
  ⟨fun f =>
    if f = 0 then [⟨20, VarKind.placeholder, 0⟩]
    else if f = 1 then [⟨21, VarKind.input, 0⟩]
    else []⟩

/-- The replacement map used with `exampleGraphPH`: the placeholder is
replaced by an Output Variable owned by node 1. -/
def exampleReplacement : Variable → Variable :=
  fun v => if v.uid = 20 then ⟨22, VarKind.output, 1⟩ else v

/-- A closed universe of function nodes: every Output-input edge from a
member leads back into the universe.  This is how "the graph is finite"
enters the theorems: all nodes reachable from a member stay inside `U`. -/
def UnivClosed (G : Graph) (U : Finset Nat) : Prop :=
  ∀ x ∈ U, ∀ y ∈ succs G x, y ∈ U

instance (G : Graph) (U : Finset Nat) : Decidable (UnivClosed G U) :=
  inferInstanceAs (Decidable (∀ x ∈ U, ∀ y ∈ succs G x, y ∈ U))

/-- `x` has all of its one-step successors inside `V`. -/
def SuccClosed (G : Graph) (V : Finset Nat) (x : Nat) : Prop :=
  ∀ y ∈ succs G x, y ∈ V

/-- The traversal order: `Traverse` instantiated with a functor that only
logs its invocations.  Every functor's effect factors through this list
(theorem `TraverseAux_fold` below). -/
def TraverseO (G : Graph) (fuel root : Nat) (visited : Finset Nat) :
    Option (Finset Nat × List Nat) :=
  TraverseAux G (fun f ord => ord ++ [f]) fuel root visited []

/-- Order property of a visit sequence: every element of `l` is produced
by (is an input-Variable owner of) some node occurring in `acc` or
earlier in `l` — the "parent is visited before the children it forces"
shape of a depth-first traversal. -/
def ChainOK (G : Graph) : List Nat → List Nat → Prop
  | _, [] => True
  | acc, y :: rest => (∃ q ∈ acc, y ∈ succs G q) ∧ ChainOK G (acc ++ [y]) rest

/-- Keep only the first occurrence of every element: the
specification-side description of the `uniqueInputs` deduplication
performed by `DetermineInputs`. -/
def firstDedup (l : List Variable) : List Variable :=
  (l.foldl
    (fun (t : List Variable × Finset Variable) x =>
      if x ∈ t.2 then t else (t.1 ++ [x], insert x t.2))
    ([], ∅)).1

/-- The effect of the substitution mechanism (`Function::ReplacePlaceholders`,
an external collaborator of the excerpt) on the graph: every input
Variable that is one of the actually replaced placeholders is rewritten
to its replacement before `OnPlaceholdersReplaced` runs. -/
def substGraph (G : Graph) (placeholderReplacements : Variable → Variable)
    (replacedPlaceholders : List Variable) : Graph :=
  ⟨fun f =>
    (G.inputs f).map (fun v =>
      if v ∈ replacedPlaceholders then placeholderReplacements v else v)⟩

/-- An axis; dynamic axes are identified (compared and reconstructed) by
their name, as in the library. -/
structure Axis where
  name : String
deriving DecidableEq

/-- Modelled from the spec: `Axis::DefaultBatchAxis()` is declared in
`CNTKLibrary.h`, outside the excerpt; it is the distinguished batch axis,
identified by a fixed reserved name. -/
def DefaultBatchAxis : Axis := ⟨"defaultBatchAxis"⟩

/-- Modelled from the spec: `Axis::DefaultDynamicAxis()` is declared in
`CNTKLibrary.h`, outside the excerpt; the distinguished default sequence
axis, identified by a fixed reserved name. -/
def DefaultDynamicAxis : Axis := ⟨"defaultDynamicAxis"⟩

/-- Modelled from the spec: the reserved constant
`CompositeFunction::InternalDefaultDynamicAxisName` is declared at header
line 57 but defined outside the excerpt; the claims only need that the
two reserved internal names are not prefixes of one another, which the
values used here satisfy. -/
def InternalDefaultDynamicAxisName : String := "*"

/-- Modelled from the spec: the reserved constant
`CompositeFunction::InternalNoSequenceAxisName`, declared at header line
58, defined outside the excerpt. -/
def InternalNoSequenceAxisName : String := "__noSequenceAxis"

/-- The character-level prefix test
`name.substr(0, prefix.length()) == prefix` used by
`DynamicAxesFromInternalDynamicAxisName`. -/
def strStartsWith (s p : String) : Bool := p.data.isPrefixOf s.data

/-- `DynamicAxesFromInternalDynamicAxisName` (header lines 279-290). -/
def DynamicAxesFromInternalDynamicAxisName (internalDynamicAxisName : String) :
    List Axis :=
  if strStartsWith internalDynamicAxisName InternalDefaultDynamicAxisName then
    [DefaultDynamicAxis, DefaultBatchAxis]
  else if strStartsWith internalDynamicAxisName InternalNoSequenceAxisName then
    [DefaultBatchAxis]
  else
    [⟨internalDynamicAxisName⟩, DefaultBatchAxis]

/-- `InternalDynamicAxisNameFromDynamicAxes` (header lines 292-304):
`LogicError("Empty dynamic axes set")` on an empty list (modelled as
`Except.error`); the reserved internal name for the two canonical axis
lists; otherwise the name of the first axis (`dynamicAxes[0].Name()`,
safe because the list is non-empty in that branch). -/
def InternalDynamicAxisNameFromDynamicAxes (dynamicAxes : List Axis) :
    Except String String :=
  if dynamicAxes = [] then Except.error "Empty dynamic axes set"
  else if dynamicAxes = [DefaultBatchAxis] then Except.ok InternalNoSequenceAxisName
  else if dynamicAxes = [DefaultDynamicAxis, DefaultBatchAxis] then
    Except.ok InternalDefaultDynamicAxisName
  else Except.ok (dynamicAxes.headD DefaultBatchAxis).name

instance {ε α : Type} [DecidableEq ε] [DecidableEq α] : DecidableEq (Except ε α)
  | Except.error e1, Except.error e2 =>
    if h : e1 = e2 then isTrue (congrArg Except.error h)
    else isFalse (fun hc => h (Except.error.inj hc))
  | Except.error _, Except.ok _ => isFalse (fun hc => Except.noConfusion hc)
  | Except.ok _, Except.error _ => isFalse (fun hc => Except.noConfusion hc)
  | Except.ok a1, Except.ok a2 =>
    if h : a1 = a2 then isTrue (congrArg Except.ok h)
    else isFalse (fun hc => h (Except.ok.inj hc))

/-- The base `BackPropState` (declared in `CNTKLibrary.h`, outside the
excerpt): the originating function (graph) and the compute device, both
modelled as identifiers. -/
structure BackPropState where
  function : Nat
  computeDevice : Nat
deriving DecidableEq

/-- `CNTKBackPropState` (header lines 16-30): the base state plus the
snapshot of the forward timestamps of the backprop roots, taken by the
`Forward` call that produced this state. -/
structure CNTKBackPropState extends BackPropState where
  backpropRootsForwardTimeStamps : List (Variable × Nat)
deriving DecidableEq

/-- `CNTKBackPropState::BackpropRootsForwardTimeStamps()` (header lines
23-26). -/
def CNTKBackPropState.BackpropRootsForwardTimeStamps (s : CNTKBackPropState) :
    List (Variable × Nat) :=
  s.backpropRootsForwardTimeStamps

/-- Modelled from the spec: the body of `CompositeFunction::Backward` is
not part of the excerpt (the header only declares it, lines 82-84).  Per
spec section 4.4, backward validates that the state was produced by a
prior forward call on the same graph and device and that every
snapshotted root timestamp still equals the root's current forward
timestamp; only then does it run the backward pass (abstracted here as
the opaque compiled-network call `computeGradients`), otherwise it fails
without computing gradients. -/
def Backward (selfFunction selfDevice : Nat) (currentTimeStamps : Variable → Nat)
    (computeGradients : List (Variable × Int) → List (Variable × Int))
    (state : CNTKBackPropState) (rootGradientValues : List (Variable × Int)) :
    Except String (List (Variable × Int)) :=
  if state.function ≠ selfFunction ∨ state.computeDevice ≠ selfDevice then
    Except.error "state does not belong to this function and device"
  else if state.BackpropRootsForwardTimeStamps.all
      (fun p => currentTimeStamps p.1 == p.2) then
    Except.ok (computeGradients rootGradientValues)
  else
    Except.error "state is stale"

/-- The cached-network fields of a `CompositeFunction`:
`m_computationNetwork` (modelled as an opaque numeric build handle),
`m_currentBackpropRoots` and `m_currentOutputs` (header lines 252-265). -/
structure NetworkCacheState where
  computationNetwork : Option Nat
  currentBackpropRoots : Finset Variable
  currentOutputs : Finset Variable
deriving DecidableEq

/-- Modelled from the spec: the body of
`CompositeFunction::GetComputationNetwork` is not part of the excerpt
(declared at header lines 198-202).  Per spec section 4.3 and the field
comments at header lines 254-265, the cached network is reused only when
one exists and the requested backprop-roots and outputs sets equal the
sets recorded by the most recent call; any mismatch forces a rebuild
(here: a fresh build handle) and records the new sets.  The Bool in the
result tells whether the cached network was reused. -/
def GetComputationNetwork (cache : NetworkCacheState)
    (backpropRoots outputs : Finset Variable) : Bool × NetworkCacheState :=
  match cache.computationNetwork with
  | some net =>
    if cache.currentBackpropRoots = backpropRoots ∧ cache.currentOutputs = outputs then
      (true, cache)
    else
      (false, ⟨some (net + 1), backpropRoots, outputs⟩)
  | none => (false, ⟨some 0, backpropRoots, outputs⟩)

/-- Per-node persisted metadata: identity, operation name, inputs, and
the internal (random-number-generator) node state whose support is what
serialization version 2 added (header lines 273-276). -/
structure PrimitiveFunctionData where
  uid : Nat
  op : String
  inputs : List Variable
  rngState : Nat
deriving DecidableEq

/-- The persisted content of a composite graph: the root reference, the
owned node set with per-node metadata, and the parameter values.  The
compiled-network caches (`m_computationNetwork`, `m_variableToNodeMap`)
are not part of this data. -/
structure CompositeGraphData where
  root : Nat
  nodes : List PrimitiveFunctionData
  parameterValues : List (Variable × Int)
deriving DecidableEq

/-- A value of the generic serialization dictionary (spec section 6),
restricted to the shapes the composite needs. -/
inductive DictValue where
  | num (n : Nat)
  | int (i : Int)
  | str (s : String)
  | seq (l : List DictValue)

/-- Numeric tag of a `VarKind` used by the serialized form. -/
def VarKind.toNat : VarKind → Nat
  | VarKind.input => 0
  | VarKind.output => 1
  | VarKind.param => 2
  | VarKind.constant => 3
  | VarKind.placeholder => 4

/-- Decode a `VarKind` tag. -/
def VarKind.ofNat? (n : Nat) : Option VarKind :=
  if n = 0 then some VarKind.input
  else if n = 1 then some VarKind.output
  else if n = 2 then some VarKind.param
  else if n = 3 then some VarKind.constant
  else if n = 4 then some VarKind.placeholder
  else none

def encodeVariable (v : Variable) : DictValue :=
  DictValue.seq [DictValue.num v.uid, DictValue.num v.kind.toNat, DictValue.num v.owner]

def decodeVariable : DictValue → Option Variable
  | DictValue.seq [DictValue.num uid, DictValue.num k, DictValue.num owner] =>
    (VarKind.ofNat? k).map (fun kind => ⟨uid, kind, owner⟩)
  | _ => none

/-- Decode every element of a list, failing when any element fails. -/
def decodeList {α : Type} (d : DictValue → Option α) : List DictValue → Option (List α)
  | [] => some []
  | x :: xs =>
    match d x, decodeList d xs with
    | some a, some rest => some (a :: rest)
    | _, _ => none

def encodeNode (n : PrimitiveFunctionData) : DictValue :=
  DictValue.seq [DictValue.num n.uid, DictValue.str n.op,
    DictValue.seq (n.inputs.map encodeVariable), DictValue.num n.rngState]

def decodeNode : DictValue → Option PrimitiveFunctionData
  | DictValue.seq [DictValue.num uid, DictValue.str op, DictValue.seq inputs,
      DictValue.num rng] =>
    (decodeList decodeVariable inputs).map (fun ins => ⟨uid, op, ins, rng⟩)
  | _ => none

def encodeParamValue (p : Variable × Int) : DictValue :=
  DictValue.seq [encodeVariable p.1, DictValue.int p.2]

def decodeParamValue : DictValue → Option (Variable × Int)
  | DictValue.seq [v, DictValue.int i] => (decodeVariable v).map (fun pv => (pv, i))
  | _ => none

/-- `s_serializationVersion` (header line 276). -/
def s_serializationVersion : Nat := 2

/-- Modelled from the spec: `CompositeFunction::Serialize` is declared at
header lines 86-97 but its body lies outside the excerpt; per spec
sections 4.4 and 6 it captures the full owned node set, the root
reference, per-node metadata (including stateful/random-number-generator
node state) and the parameter values, tagged with
`s_serializationVersion`; the derived compiled-network caches are not
persisted. -/
def Serialize (g : CompositeGraphData) : DictValue :=
  DictValue.seq [DictValue.num s_serializationVersion, DictValue.num g.root,
    DictValue.seq (g.nodes.map encodeNode),
    DictValue.seq (g.parameterValues.map encodeParamValue)]

/-- Modelled from the spec: `CompositeFunction::Deserialize` is declared
at header line 97 with its body outside the excerpt; per spec section 6
the deserializer branches on the stored version (versions 1 and 2 are
known; anything else is a construction error) and reconstructs the graph
data; a malformed dictionary is a construction error. -/
def Deserialize (d : DictValue) : Option CompositeGraphData :=
  match d with
  | DictValue.seq [DictValue.num version, DictValue.num root, DictValue.seq nodes,
      DictValue.seq params] =>
    if version = 1 ∨ version = 2 then
      match decodeList decodeNode nodes, decodeList decodeParamValue params with
      | some ns, some ps => some ⟨root, ns, ps⟩
      | _, _ => none
    else none
  | _ => none

theorem mem_succs {G : Graph} {f y : Nat} :
    y ∈ succs G f ↔ ∃ v ∈ G.inputs f, v.kind = VarKind.output ∧ v.owner = y := by
  simp only [succs, List.mem_filterMap]
  constructor
  · rintro ⟨v, hv, heq⟩
    by_cases hk : v.kind = VarKind.output
    · rw [if_pos hk] at heq
      exact ⟨v, hv, hk, Option.some.inj heq⟩
    · rw [if_neg hk] at heq
      cases heq
  · rintro ⟨v, hv, hk, rfl⟩
    exact ⟨v, hv, by rw [if_pos hk]⟩

theorem Reachable.trans {G : Graph} {a b c : Nat}
    (hab : Reachable G a b) (hbc : Reachable G b c) : Reachable G a c := by
  induction hab with
  | refl => exact hbc
  | head hstep _ ih => exact Reachable.head hstep (ih hbc)

theorem Reachable.single {G : Graph} {a b : Nat} (h : b ∈ succs G a) :
    Reachable G a b :=
  Reachable.head h (Reachable.refl b)

theorem TraverseList_mono {σ : Type} {rec : Nat → Finset Nat → σ → Option (Finset Nat × σ)}
    (hrec : ∀ r v s v' s', rec r v s = some (v', s') → v ⊆ v') :
    ∀ (l : List Variable) (v : Finset Nat) (s : σ) (v' : Finset Nat) (s' : σ),
      TraverseList rec l v s = some (v', s') → v ⊆ v' := by
  intro l
  induction l with
  | nil =>
    intro v s v' s' h
    simp only [TraverseList, Option.some.injEq, Prod.mk.injEq] at h
    exact h.1 ▸ Finset.Subset.refl v
  | cons inp rest ih =>
    intro v s v' s' h
    simp only [TraverseList] at h
    split at h
    · cases hrec_eq : rec inp.owner v s with
      | none => rw [hrec_eq] at h; cases h
      | some p =>
        rw [hrec_eq] at h
        exact Finset.Subset.trans (hrec _ _ _ _ _ hrec_eq) (ih _ _ _ _ h)
    · exact ih _ _ _ _ h

theorem TraverseAux_mono {σ : Type} {G : Graph} {functor : Nat → σ → σ} :
    ∀ (fuel root : Nat) (v : Finset Nat) (s : σ) (v' : Finset Nat) (s' : σ),
      TraverseAux G functor fuel root v s = some (v', s') → v ⊆ v' := by
  intro fuel
  induction fuel with
  | zero => intro root v s v' s' h; simp [TraverseAux] at h
  | succ fuel ih =>
    intro root v s v' s' h
    simp only [TraverseAux] at h
    exact Finset.Subset.trans (Finset.subset_insert _ _)
      (TraverseList_mono (fun r v s v' s' hr => ih r v s v' s' hr) _ _ _ _ _ h)

theorem TraverseList_success {σ : Type} {U : Finset Nat}
    {rec : Nat → Finset Nat → σ → Option (Finset Nat × σ)} {v : Finset Nat}
    (hrec : ∀ r (v2 : Finset Nat) (s2 : σ), r ∈ U → r ∉ v2 → v ⊆ v2 →
      ∃ v3 s3, rec r v2 s2 = some (v3, s3) ∧ v2 ⊆ v3) :
    ∀ (l : List Variable), (∀ inp ∈ l, inp.kind = VarKind.output → inp.owner ∈ U) →
      ∀ (v2 : Finset Nat) (s2 : σ), v ⊆ v2 →
        ∃ v3 s3, TraverseList rec l v2 s2 = some (v3, s3) ∧ v2 ⊆ v3 := by
  intro l
  induction l with
  | nil =>
    intro _ v2 s2 _
    exact ⟨v2, s2, rfl, Finset.Subset.refl v2⟩
  | cons inp rest ih =>
    intro hl v2 s2 hanchor
    by_cases hcond : inp.kind = VarKind.output ∧ inp.owner ∉ v2
    · obtain ⟨v3, s3, hstep, hsub⟩ :=
        hrec inp.owner v2 s2 (hl inp (List.mem_cons_self _ _) hcond.1) hcond.2 hanchor
      obtain ⟨v4, s4, hrest, hsub2⟩ :=
        ih (fun i hi => hl i (List.mem_cons_of_mem _ hi)) v3 s3
          (Finset.Subset.trans hanchor hsub)
      refine ⟨v4, s4, ?_, Finset.Subset.trans hsub hsub2⟩
      simp only [TraverseList]
      rw [if_pos hcond, hstep]
      exact hrest
    · obtain ⟨v4, s4, hrest, hsub2⟩ :=
        ih (fun i hi => hl i (List.mem_cons_of_mem _ hi)) v2 s2 hanchor
      refine ⟨v4, s4, ?_, hsub2⟩
      simp only [TraverseList]
      rw [if_neg hcond]
      exact hrest

theorem TraverseAux_success {σ : Type} {G : Graph} {functor : Nat → σ → σ} {U : Finset Nat}
    (hU : UnivClosed G U) :
    ∀ (fuel root : Nat) (v : Finset Nat) (s : σ), root ∈ U → root ∉ v →
      (U \ v).card < fuel →
      ∃ v' s', TraverseAux G functor fuel root v s = some (v', s') ∧ v ⊆ v' := by
  intro fuel
  induction fuel with
  | zero =>
    intro root v s _ _ hcard
    exact absurd hcard (Nat.not_lt_zero _)
  | succ fuel ih =>
    intro root v s hrootU hrootv hcard
    have hrootdiff : root ∈ U \ v := Finset.mem_sdiff.2 ⟨hrootU, hrootv⟩
    have hins : U \ insert root v = (U \ v).erase root := by
      ext x
      simp only [Finset.mem_sdiff, Finset.mem_erase, Finset.mem_insert]
      tauto
    have hcard1 : (U \ insert root v).card < fuel := by
      rw [hins]
      have h1 : ((U \ v).erase root).card < (U \ v).card :=
        Finset.card_erase_lt_of_mem hrootdiff
      omega
    have hl : ∀ inp ∈ G.inputs root, inp.kind = VarKind.output → inp.owner ∈ U := by
      intro inp hin hk
      exact hU root hrootU inp.owner (mem_succs.2 ⟨inp, hin, hk, rfl⟩)
    have hrec : ∀ r (v2 : Finset Nat) (s2 : σ), r ∈ U → r ∉ v2 → insert root v ⊆ v2 →
        ∃ v3 s3, TraverseAux G functor fuel r v2 s2 = some (v3, s3) ∧ v2 ⊆ v3 := by
      intro r v2 s2 hrU hrv2 hsub
      apply ih r v2 s2 hrU hrv2
      calc (U \ v2).card
          ≤ (U \ insert root v).card :=
            Finset.card_le_card
              (Finset.sdiff_subset_sdiff (Finset.Subset.refl U) hsub)
        _ < fuel := hcard1
    obtain ⟨v3, s3, hrun, hsub⟩ :=
      TraverseList_success hrec (G.inputs root) hl (insert root v) (functor root s)
        (Finset.Subset.refl _)
    refine ⟨v3, s3, ?_, Finset.Subset.trans (Finset.subset_insert _ _) hsub⟩
    simp only [TraverseAux]
    exact hrun

/-- Fuel sufficiency in the general case in which the root may already be
in the visited set (the top-level call admits this). -/
theorem TraverseAux_success_of_card {σ : Type} {G : Graph} {functor : Nat → σ → σ}
    {U : Finset Nat} (hU : UnivClosed G U) :
    ∀ (fuel root : Nat) (v : Finset Nat) (s : σ), root ∈ U →
      (U \ v).card + 2 ≤ fuel →
      ∃ v' s', TraverseAux G functor fuel root v s = some (v', s') ∧ v ⊆ v' := by
  intro fuel root v s hrootU hfuel
  by_cases hrootv : root ∈ v
  · obtain ⟨fuel', rfl⟩ : ∃ f', fuel = f' + 1 := ⟨fuel - 1, by omega⟩
    have hl : ∀ inp ∈ G.inputs root, inp.kind = VarKind.output → inp.owner ∈ U := by
      intro inp hin hk
      exact hU root hrootU inp.owner (mem_succs.2 ⟨inp, hin, hk, rfl⟩)
    have hrec : ∀ r (v2 : Finset Nat) (s2 : σ), r ∈ U → r ∉ v2 → insert root v ⊆ v2 →
        ∃ v3 s3, TraverseAux G functor fuel' r v2 s2 = some (v3, s3) ∧ v2 ⊆ v3 := by
      intro r v2 s2 hrU hrv2 hsub
      apply TraverseAux_success hU fuel' r v2 s2 hrU hrv2
      have hsubv : v ⊆ v2 := Finset.Subset.trans (Finset.subset_insert _ _) hsub
      have : (U \ v2).card ≤ (U \ v).card :=
        Finset.card_le_card (Finset.sdiff_subset_sdiff (Finset.Subset.refl U) hsubv)
      omega
    obtain ⟨v3, s3, hrun, hsub⟩ :=
      TraverseList_success hrec (G.inputs root) hl (insert root v) (functor root s)
        (Finset.Subset.refl _)
    refine ⟨v3, s3, ?_, Finset.Subset.trans (Finset.subset_insert _ _) hsub⟩
    simp only [TraverseAux]
    exact hrun
  · exact TraverseAux_success hU fuel root v s hrootU hrootv (by omega)

theorem TraverseList_sound {σ : Type} {G : Graph}
    {rec : Nat → Finset Nat → σ → Option (Finset Nat × σ)}
    (hrec : ∀ r v s v' s', rec r v s = some (v', s') →
      ∀ x ∈ v', x ∈ v ∨ Reachable G r x) :
    ∀ (l : List Variable) (v : Finset Nat) (s : σ) (v' : Finset Nat) (s' : σ),
      TraverseList rec l v s = some (v', s') →
      ∀ x ∈ v', x ∈ v ∨ ∃ inp ∈ l, inp.kind = VarKind.output ∧ Reachable G inp.owner x := by
  intro l
  induction l with
  | nil =>
    intro v s v' s' h x hx
    simp only [TraverseList, Option.some.injEq, Prod.mk.injEq] at h
    exact Or.inl (h.1 ▸ hx)
  | cons inp rest ih =>
    intro v s v' s' h x hx
    simp only [TraverseList] at h
    by_cases hcond : inp.kind = VarKind.output ∧ inp.owner ∉ v
    · rw [if_pos hcond] at h
      cases hrec_eq : rec inp.owner v s with
      | none => rw [hrec_eq] at h; cases h
      | some p =>
        rw [hrec_eq] at h
        rcases ih _ _ _ _ h x hx with hmem | ⟨i, hi, hik, hir⟩
        · rcases hrec _ _ _ _ _ hrec_eq x hmem with hv | hre
          · exact Or.inl hv
          · exact Or.inr ⟨inp, List.mem_cons_self _ _, hcond.1, hre⟩
        · exact Or.inr ⟨i, List.mem_cons_of_mem _ hi, hik, hir⟩
    · rw [if_neg hcond] at h
      rcases ih _ _ _ _ h x hx with hmem | ⟨i, hi, hik, hir⟩
      · exact Or.inl hmem
      · exact Or.inr ⟨i, List.mem_cons_of_mem _ hi, hik, hir⟩

theorem TraverseAux_sound {σ : Type} {G : Graph} {functor : Nat → σ → σ} :
    ∀ (fuel root : Nat) (v : Finset Nat) (s : σ) (v' : Finset Nat) (s' : σ),
      TraverseAux G functor fuel root v s = some (v', s') →
      ∀ x ∈ v', x ∈ v ∨ Reachable G root x := by
  intro fuel
  induction fuel with
  | zero => intro root v s v' s' h; simp [TraverseAux] at h
  | succ fuel ih =>
    intro root v s v' s' h x hx
    simp only [TraverseAux] at h
    rcases TraverseList_sound (fun r v s v' s' hr => ih r v s v' s' hr) _ _ _ _ _ h x hx
      with hmem | ⟨i, hi, hik, hir⟩
    · rcases Finset.mem_insert.1 hmem with rfl | hv
      · exact Or.inr (Reachable.refl x)
      · exact Or.inl hv
    · exact Or.inr (Reachable.head (mem_succs.2 ⟨i, hi, hik, rfl⟩) hir)

theorem SuccClosed.mono {G : Graph} {V W : Finset Nat} {x : Nat}
    (h : SuccClosed G V x) (hVW : V ⊆ W) : SuccClosed G W x :=
  fun y hy => hVW (h y hy)

theorem TraverseList_closed {σ : Type} {G : Graph}
    {rec : Nat → Finset Nat → σ → Option (Finset Nat × σ)}
    (hrecmono : ∀ r v s v' s', rec r v s = some (v', s') → v ⊆ v')
    (hrec : ∀ r v s v' s', rec r v s = some (v', s') →
      r ∈ v' ∧ ∀ x ∈ v', x ∈ v ∨ SuccClosed G v' x) :
    ∀ (l : List Variable) (v : Finset Nat) (s : σ) (v' : Finset Nat) (s' : σ),
      TraverseList rec l v s = some (v', s') →
      (∀ inp ∈ l, inp.kind = VarKind.output → inp.owner ∈ v') ∧
        ∀ x ∈ v', x ∈ v ∨ SuccClosed G v' x := by
  intro l
  induction l with
  | nil =>
    intro v s v' s' h
    simp only [TraverseList, Option.some.injEq, Prod.mk.injEq] at h
    obtain ⟨rfl, -⟩ := h
    exact ⟨fun i hi => absurd hi (List.not_mem_nil i), fun x hx => Or.inl hx⟩
  | cons inp rest ih =>
    intro v s v' s' h
    simp only [TraverseList] at h
    by_cases hcond : inp.kind = VarKind.output ∧ inp.owner ∉ v
    · rw [if_pos hcond] at h
      cases hrec_eq : rec inp.owner v s with
      | none => rw [hrec_eq] at h; cases h
      | some p =>
        rw [hrec_eq] at h
        obtain ⟨howner_mem, hinv⟩ := hrec _ _ _ _ _ hrec_eq
        obtain ⟨hrest_owners, hinv2⟩ := ih _ _ _ _ h
        have hsub : p.1 ⊆ v' := TraverseList_mono hrecmono _ _ _ _ _ h
        constructor
        · intro i hi hik
          rcases List.mem_cons.1 hi with rfl | hi'
          · exact hsub howner_mem
          · exact hrest_owners i hi' hik
        · intro x hx
          rcases hinv2 x hx with hmem | hsc
          · rcases hinv x hmem with hv | hsc1
            · exact Or.inl hv
            · exact Or.inr (hsc1.mono hsub)
          · exact Or.inr hsc
    · rw [if_neg hcond] at h
      obtain ⟨hrest_owners, hinv2⟩ := ih _ _ _ _ h
      refine ⟨?_, hinv2⟩
      intro i hi hik
      rcases List.mem_cons.1 hi with rfl | hi'
      · have howner : i.owner ∈ v := by
          by_contra hno
          exact hcond ⟨hik, hno⟩
        exact TraverseList_mono hrecmono _ _ _ _ _ h howner
      · exact hrest_owners i hi' hik

theorem TraverseAux_closed {σ : Type} {G : Graph} {functor : Nat → σ → σ} :
    ∀ (fuel root : Nat) (v : Finset Nat) (s : σ) (v' : Finset Nat) (s' : σ),
      TraverseAux G functor fuel root v s = some (v', s') →
      root ∈ v' ∧ ∀ x ∈ v', x ∈ v ∨ SuccClosed G v' x := by
  intro fuel
  induction fuel with
  | zero => intro root v s v' s' h; simp [TraverseAux] at h
  | succ fuel ih =>
    intro root v s v' s' h
    simp only [TraverseAux] at h
    obtain ⟨howners, hinv⟩ :=
      TraverseList_closed (fun r v s v' s' hr => TraverseAux_mono fuel r v s v' s' hr)
        (fun r v s v' s' hr => ih r v s v' s' hr) _ _ _ _ _ h
    have hrootmem : root ∈ v' :=
      TraverseList_mono (fun r v s v' s' hr => TraverseAux_mono fuel r v s v' s' hr)
        _ _ _ _ _ h (Finset.mem_insert_self root v)
    refine ⟨hrootmem, ?_⟩
    intro x hx
    rcases hinv x hx with hmem | hsc
    · rcases Finset.mem_insert.1 hmem with rfl | hv
      · refine Or.inr (fun y hy => ?_)
        obtain ⟨i, hi, hik, rfl⟩ := mem_succs.1 hy
        exact howners i hi hik
      · exact Or.inl hv
    · exact Or.inr hsc

theorem reachable_mem_of_closed {G : Graph} {V : Finset Nat}
    (hclosed : ∀ x ∈ V, SuccClosed G V x) :
    ∀ {f x : Nat}, Reachable G f x → f ∈ V → x ∈ V := by
  intro f x hreach
  induction hreach with
  | refl => exact fun hf => hf
  | head hstep _ ih => exact fun hf => ih (hclosed _ hf _ hstep)

/-- The central characterisation of `Collect` starting from an empty
visited set: it succeeds (given enough fuel for a closed finite universe)
and returns exactly the reachable closure of the root. -/
theorem Collect_closure {G : Graph} {U : Finset Nat} {fuel root : Nat}
    (hU : UnivClosed G U) (hroot : root ∈ U) (hfuel : U.card + 2 ≤ fuel) :
    ∃ fns, Collect G fuel root ∅ = some fns ∧ ∀ x, x ∈ fns ↔ Reachable G root x := by
  obtain ⟨v', s', hrun, -⟩ :=
    @TraverseAux_success_of_card Unit G (fun _ s => s) U hU fuel root ∅ () hroot
      (by simpa using hfuel)
  refine ⟨v', by simp [Collect, hrun], ?_⟩
  intro x
  constructor
  · intro hx
    rcases TraverseAux_sound fuel root ∅ () v' s' hrun x hx with hmem | hre
    · simp at hmem
    · exact hre
  · intro hre
    obtain ⟨hrootv', hinv⟩ := TraverseAux_closed fuel root ∅ () v' s' hrun
    have hclosed : ∀ y ∈ v', SuccClosed G v' y := by
      intro y hy
      rcases hinv y hy with hmem | hsc
      · simp at hmem
      · exact hsc
    exact reachable_mem_of_closed hclosed hre hrootv'

theorem TraverseList_nil {σ : Type} {rec : Nat → Finset Nat → σ → Option (Finset Nat × σ)}
    {v : Finset Nat} {s : σ} : TraverseList rec [] v s = some (v, s) := rfl

theorem TraverseList_cons_some {σ : Type}
    {rec : Nat → Finset Nat → σ → Option (Finset Nat × σ)} {inp : Variable}
    {rest : List Variable} {v : Finset Nat} {s : σ} {p : Finset Nat × σ}
    (hcond : inp.kind = VarKind.output ∧ inp.owner ∉ v)
    (h : rec inp.owner v s = some p) :
    TraverseList rec (inp :: rest) v s = TraverseList rec rest p.1 p.2 := by
  simp only [TraverseList]
  rw [if_pos hcond, h]

theorem TraverseList_cons_none {σ : Type}
    {rec : Nat → Finset Nat → σ → Option (Finset Nat × σ)} {inp : Variable}
    {rest : List Variable} {v : Finset Nat} {s : σ}
    (hcond : inp.kind = VarKind.output ∧ inp.owner ∉ v)
    (h : rec inp.owner v s = none) :
    TraverseList rec (inp :: rest) v s = none := by
  simp only [TraverseList]
  rw [if_pos hcond, h]

theorem TraverseList_cons_skip {σ : Type}
    {rec : Nat → Finset Nat → σ → Option (Finset Nat × σ)} {inp : Variable}
    {rest : List Variable} {v : Finset Nat} {s : σ}
    (hcond : ¬(inp.kind = VarKind.output ∧ inp.owner ∉ v)) :
    TraverseList rec (inp :: rest) v s = TraverseList rec rest v s := by
  simp only [TraverseList]
  rw [if_neg hcond]

theorem foldl_append_singleton : ∀ (l acc : List Nat),
    l.foldl (fun a f => a ++ [f]) acc = acc ++ l := by
  intro l
  induction l with
  | nil => intro acc; simp
  | cons x xs ih => intro acc; simp [List.foldl_cons, ih]

theorem TraverseList_shift
    {recO : Nat → Finset Nat → List Nat → Option (Finset Nat × List Nat)}
    (hshift : ∀ r v acc, recO r v acc = (recO r v []).map (fun p => (p.1, acc ++ p.2))) :
    ∀ (l : List Variable) (v : Finset Nat) (acc : List Nat),
      TraverseList recO l v acc =
        (TraverseList recO l v []).map (fun p => (p.1, acc ++ p.2)) := by
  intro l
  induction l with
  | nil => intro v acc; simp [TraverseList_nil]
  | cons inp rest ih =>
    intro v acc
    by_cases hcond : inp.kind = VarKind.output ∧ inp.owner ∉ v
    · cases hq : recO inp.owner v [] with
      | none =>
        have hacc : recO inp.owner v acc = none := by rw [hshift, hq]; rfl
        rw [TraverseList_cons_none hcond hacc, TraverseList_cons_none hcond hq]
        rfl
      | some q =>
        have hacc : recO inp.owner v acc = some (q.1, acc ++ q.2) := by
          rw [hshift, hq]; rfl
        rw [TraverseList_cons_some hcond hacc, TraverseList_cons_some hcond hq]
        rw [ih q.1 (acc ++ q.2), ih q.1 q.2]
        cases TraverseList recO rest q.1 [] <;> simp [List.append_assoc]
    · rw [TraverseList_cons_skip hcond, TraverseList_cons_skip hcond, ih]

theorem TraverseList_fold {σ : Type} {φ : Nat → σ → σ}
    {recφ : Nat → Finset Nat → σ → Option (Finset Nat × σ)}
    {recO : Nat → Finset Nat → List Nat → Option (Finset Nat × List Nat)}
    (hlink : ∀ r v s, recφ r v s =
      (recO r v []).map (fun p => (p.1, p.2.foldl (fun a f => φ f a) s)))
    (hshift : ∀ r v acc, recO r v acc = (recO r v []).map (fun p => (p.1, acc ++ p.2))) :
    ∀ (l : List Variable) (v : Finset Nat) (s : σ),
      TraverseList recφ l v s =
        (TraverseList recO l v []).map
          (fun p => (p.1, p.2.foldl (fun a f => φ f a) s)) := by
  intro l
  induction l with
  | nil => intro v s; simp [TraverseList_nil]
  | cons inp rest ih =>
    intro v s
    by_cases hcond : inp.kind = VarKind.output ∧ inp.owner ∉ v
    · cases hq : recO inp.owner v [] with
      | none =>
        have hφ : recφ inp.owner v s = none := by rw [hlink, hq]; rfl
        rw [TraverseList_cons_none hcond hφ, TraverseList_cons_none hcond hq]
        rfl
      | some q =>
        have hφ : recφ inp.owner v s = some (q.1, q.2.foldl (fun a f => φ f a) s) := by
          rw [hlink, hq]; rfl
        rw [TraverseList_cons_some hcond hφ, TraverseList_cons_some hcond hq]
        rw [ih q.1 (q.2.foldl (fun a f => φ f a) s),
          TraverseList_shift hshift rest q.1 q.2]
        cases TraverseList recO rest q.1 [] <;> simp [List.foldl_append]
    · rw [TraverseList_cons_skip hcond, TraverseList_cons_skip hcond, ih]

/-- Any functor's run is the fold of the functor over the recorded visit
order: for a fixed graph, fuel, root and initial visited set, `Traverse`
invokes its functor along one visitor-independent sequence. -/
theorem TraverseAux_fold {G : Graph} :
    ∀ (fuel : Nat) (σ : Type) (φ : Nat → σ → σ) (root : Nat) (v : Finset Nat) (s : σ),
      TraverseAux G φ fuel root v s =
        (TraverseAux G (fun f ord => ord ++ [f]) fuel root v []).map
          (fun p => (p.1, p.2.foldl (fun a f => φ f a) s)) := by
  intro fuel
  induction fuel with
  | zero => intro σ φ root v s; rfl
  | succ fuel ih =>
    intro σ φ root v s
    have hshift : ∀ (r : Nat) (v : Finset Nat) (acc : List Nat),
        TraverseAux G (fun f ord => ord ++ [f]) fuel r v acc =
          (TraverseAux G (fun f ord => ord ++ [f]) fuel r v []).map
            (fun p => (p.1, acc ++ p.2)) := by
      intro r v acc
      rw [ih (List Nat) (fun f ord => ord ++ [f]) r v acc]
      cases TraverseAux G (fun f ord => ord ++ [f]) fuel r v [] <;>
        simp [foldl_append_singleton]
    have hlink : ∀ (r : Nat) (v : Finset Nat) (s : σ),
        TraverseAux G φ fuel r v s =
          (TraverseAux G (fun f ord => ord ++ [f]) fuel r v []).map
            (fun p => (p.1, p.2.foldl (fun a f => φ f a) s)) :=
      fun r v s => ih σ φ r v s
    calc TraverseAux G φ (fuel + 1) root v s
        = TraverseList (fun a b c => TraverseAux G φ fuel a b c) (G.inputs root)
            (insert root v) (φ root s) := rfl
      _ = (TraverseList (fun a b c => TraverseAux G (fun f ord => ord ++ [f]) fuel a b c)
            (G.inputs root) (insert root v) []).map
            (fun p => (p.1, p.2.foldl (fun a f => φ f a) (φ root s))) :=
          TraverseList_fold hlink hshift _ _ _
      _ = ((TraverseList (fun a b c => TraverseAux G (fun f ord => ord ++ [f]) fuel a b c)
            (G.inputs root) (insert root v) []).map (fun p => (p.1, [root] ++ p.2))).map
            (fun p => (p.1, p.2.foldl (fun a f => φ f a) s)) := by
          cases TraverseList (fun a b c => TraverseAux G (fun f ord => ord ++ [f]) fuel a b c)
            (G.inputs root) (insert root v) [] <;> simp
      _ = (TraverseList (fun a b c => TraverseAux G (fun f ord => ord ++ [f]) fuel a b c)
            (G.inputs root) (insert root v) [root]).map
            (fun p => (p.1, p.2.foldl (fun a f => φ f a) s)) := by
          rw [TraverseList_shift hshift (G.inputs root) (insert root v) [root]]
      _ = (TraverseAux G (fun f ord => ord ++ [f]) (fuel + 1) root v []).map
            (fun p => (p.1, p.2.foldl (fun a f => φ f a) s)) := rfl

theorem TraverseList_ord
    {recO : Nat → Finset Nat → List Nat → Option (Finset Nat × List Nat)}
    (hrec : ∀ r (v : Finset Nat) acc v' out, recO r v acc = some (v', out) →
      ∃ nr : List Nat, out = acc ++ r :: nr ∧ v' = insert r v ∪ nr.toFinset ∧
        nr.Nodup ∧ ∀ x ∈ nr, x ∉ insert r v) :
    ∀ (l : List Variable) (v : Finset Nat) (acc : List Nat) (v' : Finset Nat)
      (out : List Nat),
      TraverseList recO l v acc = some (v', out) →
      ∃ new : List Nat, out = acc ++ new ∧ v' = v ∪ new.toFinset ∧
        new.Nodup ∧ ∀ x ∈ new, x ∉ v := by
  intro l
  induction l with
  | nil =>
    intro v acc v' out h
    simp only [TraverseList, Option.some.injEq, Prod.mk.injEq] at h
    obtain ⟨rfl, rfl⟩ := h
    exact ⟨[], by simp, by simp, List.nodup_nil, by simp⟩
  | cons inp rest ih =>
    intro v acc v' out h
    by_cases hcond : inp.kind = VarKind.output ∧ inp.owner ∉ v
    · cases hq : recO inp.owner v acc with
      | none => rw [TraverseList_cons_none hcond hq] at h; cases h
      | some q =>
        rw [TraverseList_cons_some hcond hq] at h
        obtain ⟨nr1, hout1, hv1, hnd1, hnew1⟩ := hrec _ _ _ _ _ hq
        obtain ⟨new2, hout2, hv2, hnd2, hnew2⟩ := ih _ _ _ _ h
        refine ⟨(inp.owner :: nr1) ++ new2, ?_, ?_, ?_, ?_⟩
        · rw [hout2, hout1]; simp
        · rw [hv2, hv1]
          ext x
          simp only [Finset.mem_union, Finset.mem_insert, List.mem_toFinset,
            List.mem_append, List.mem_cons]
          tauto
        · rw [List.nodup_append]
          refine ⟨?_, hnd2, ?_⟩
          · exact List.nodup_cons.2 ⟨fun hmem => (hnew1 _ hmem) (Finset.mem_insert_self _ _), hnd1⟩
          · intro a ha hb
            have haq : a ∈ q.1 := by
              rw [hv1]
              rcases List.mem_cons.1 ha with rfl | ha'
              · exact Finset.mem_union_left _ (Finset.mem_insert_self _ _)
              · exact Finset.mem_union_right _ (List.mem_toFinset.2 ha')
            exact hnew2 a hb haq
        · intro x hx
          rcases List.mem_append.1 hx with hx1 | hx2
          · rcases List.mem_cons.1 hx1 with rfl | hx1'
            · exact hcond.2
            · exact fun hxv => (hnew1 x hx1') (Finset.mem_insert_of_mem hxv)
          · intro hxv
            exact hnew2 x hx2 (by rw [hv1]; exact Finset.mem_union_left _ (Finset.mem_insert_of_mem hxv))
    · rw [TraverseList_cons_skip hcond] at h
      exact ih _ _ _ _ h

/-- Structure of the recorded visit order: the root is appended first,
then a duplicate-free list of nodes none of which was in the visited set
(or equal to the root); the final visited set is the initial one plus
exactly the appended nodes. -/
theorem TraverseAux_ord {G : Graph} :
    ∀ (fuel root : Nat) (v : Finset Nat) (acc : List Nat) (v' : Finset Nat)
      (out : List Nat),
      TraverseAux G (fun f ord => ord ++ [f]) fuel root v acc = some (v', out) →
      ∃ nr : List Nat, out = acc ++ root :: nr ∧ v' = insert root v ∪ nr.toFinset ∧
        nr.Nodup ∧ ∀ x ∈ nr, x ∉ insert root v := by
  intro fuel
  induction fuel with
  | zero => intro root v acc v' out h; simp [TraverseAux] at h
  | succ fuel ih =>
    intro root v acc v' out h
    have h' : TraverseList (fun a b c => TraverseAux G (fun f ord => ord ++ [f]) fuel a b c)
        (G.inputs root) (insert root v) (acc ++ [root]) = some (v', out) := h
    obtain ⟨new, hout, hv, hnd, hnew⟩ :=
      TraverseList_ord (fun r v acc v' out hr => ih r v acc v' out hr) _ _ _ _ _ h'
    exact ⟨new, by rw [hout]; simp, hv, hnd, hnew⟩

theorem ChainOK_mono {G : Graph} :
    ∀ (l P Q : List Nat), (∀ x ∈ P, x ∈ Q) → ChainOK G P l → ChainOK G Q l := by
  intro l
  induction l with
  | nil => intro P Q _ _; trivial
  | cons y rest ih =>
    intro P Q hPQ h
    obtain ⟨⟨q, hq, hsucc⟩, htail⟩ := h
    refine ⟨⟨q, hPQ q hq, hsucc⟩, ih _ _ ?_ htail⟩
    intro x hx
    rcases List.mem_append.1 hx with hx' | hx'
    · exact List.mem_append_left _ (hPQ x hx')
    · exact List.mem_append_right _ hx'

theorem ChainOK_append {G : Graph} :
    ∀ (xs ys P : List Nat),
      ChainOK G P (xs ++ ys) ↔ ChainOK G P xs ∧ ChainOK G (P ++ xs) ys := by
  intro xs
  induction xs with
  | nil => intro ys P; simp [ChainOK]
  | cons x rest ih =>
    intro ys P
    show (∃ q ∈ P, x ∈ succs G q) ∧ ChainOK G (P ++ [x]) (rest ++ ys) ↔ _
    rw [ih ys (P ++ [x])]
    have hP : (P ++ [x]) ++ rest = P ++ x :: rest := by simp
    rw [hP]
    show _ ↔ ((∃ q ∈ P, x ∈ succs G q) ∧ ChainOK G (P ++ [x]) rest) ∧ _
    tauto

theorem TraverseList_chain {G : Graph}
    {recO : Nat → Finset Nat → List Nat → Option (Finset Nat × List Nat)}
    (hrec : ∀ r (v : Finset Nat) acc v' out, recO r v acc = some (v', out) →
      ∃ nr : List Nat, out = acc ++ r :: nr ∧ ChainOK G [r] nr) :
    ∀ (l : List Variable) (P : List Nat) (v : Finset Nat) (acc : List Nat)
      (v' : Finset Nat) (out : List Nat),
      TraverseList recO l v acc = some (v', out) →
      (∀ inp ∈ l, inp.kind = VarKind.output → ∃ q ∈ P, inp.owner ∈ succs G q) →
      ∃ new : List Nat, out = acc ++ new ∧ ChainOK G P new := by
  intro l
  induction l with
  | nil =>
    intro P v acc v' out h _
    simp only [TraverseList, Option.some.injEq, Prod.mk.injEq] at h
    exact ⟨[], by simp [h.2.symm], trivial⟩
  | cons inp rest ih =>
    intro P v acc v' out h hl
    by_cases hcond : inp.kind = VarKind.output ∧ inp.owner ∉ v
    · cases hq : recO inp.owner v acc with
      | none => rw [TraverseList_cons_none hcond hq] at h; cases h
      | some q =>
        rw [TraverseList_cons_some hcond hq] at h
        obtain ⟨nr1, hout1, hchain1⟩ := hrec _ _ _ _ _ hq
        obtain ⟨new2, hout2, hchain2⟩ :=
          ih P _ _ _ _ h (fun i hi hik => hl i (List.mem_cons_of_mem _ hi) hik)
        refine ⟨(inp.owner :: nr1) ++ new2, by rw [hout2, hout1]; simp, ?_⟩
        rw [ChainOK_append]
        constructor
        · show (∃ q ∈ P, inp.owner ∈ succs G q) ∧ ChainOK G (P ++ [inp.owner]) nr1
          exact ⟨hl inp (List.mem_cons_self _ _) hcond.1,
            ChainOK_mono _ _ _ (fun x hx => List.mem_append_right P hx) hchain1⟩
        · exact ChainOK_mono _ _ _ (fun x hx => List.mem_append_left _ hx) hchain2
    · rw [TraverseList_cons_skip hcond] at h
      exact ih P _ _ _ _ h (fun i hi hik => hl i (List.mem_cons_of_mem _ hi) hik)

/-- Parents before children in the visit order: every node appended after
the root is an input-producer successor of the root or of an earlier
appended node. -/
theorem TraverseAux_chain {G : Graph} :
    ∀ (fuel root : Nat) (v : Finset Nat) (acc : List Nat) (v' : Finset Nat)
      (out : List Nat),
      TraverseAux G (fun f ord => ord ++ [f]) fuel root v acc = some (v', out) →
      ∃ nr : List Nat, out = acc ++ root :: nr ∧ ChainOK G [root] nr := by
  intro fuel
  induction fuel with
  | zero => intro root v acc v' out h; simp [TraverseAux] at h
  | succ fuel ih =>
    intro root v acc v' out h
    have h' : TraverseList (fun a b c => TraverseAux G (fun f ord => ord ++ [f]) fuel a b c)
        (G.inputs root) (insert root v) (acc ++ [root]) = some (v', out) := h
    obtain ⟨new, hout, hchain⟩ :=
      TraverseList_chain (fun r v acc v' out hr => ih r v acc v' out hr) _ [root] _ _ _ _ h'
        (fun i hi hik => ⟨root, List.mem_cons_self _ _, mem_succs.2 ⟨i, hi, hik, rfl⟩⟩)
    exact ⟨new, by rw [hout]; simp, hchain⟩

theorem foldl_det_eq_dedup :
    ∀ (l : List Variable) (t : List Variable × Finset Variable),
      l.foldl (fun t input =>
          if ¬ input.IsOutput ∧ input ∉ t.2 then (t.1 ++ [input], insert input t.2) else t)
        t =
      (l.filter (fun x => decide (¬ x.IsOutput))).foldl
        (fun t x => if x ∈ t.2 then t else (t.1 ++ [x], insert x t.2)) t := by
  intro l
  induction l with
  | nil => intro t; rfl
  | cons x xs ih =>
    intro t
    by_cases hout : x.IsOutput
    · have hdec : decide (¬ x.IsOutput) = false := by simp [hout]
      simp only [List.foldl_cons, List.filter_cons, hdec, Bool.false_eq_true, if_false]
      rw [if_neg (fun hc => hc.1 hout)]
      exact ih t
    · have hdec : decide (¬ x.IsOutput) = true := by simp [hout]
      simp only [List.foldl_cons, List.filter_cons, hdec, if_true]
      by_cases hmem : x ∈ t.2
      · rw [if_neg (fun hc => hc.2 hmem), if_pos hmem]
        exact ih t
      · rw [if_pos ⟨hout, hmem⟩, if_neg hmem]
        exact ih _

theorem foldl_detStep_eq (G : Graph) :
    ∀ (ord : List Nat) (t : List Variable × Finset Variable),
      ord.foldl (fun a f => DetermineInputsStep G f a) t =
      ((ord.map (fun f => (G.inputs f).filter (fun x => decide (¬ x.IsOutput)))).flatten).foldl
        (fun t x => if x ∈ t.2 then t else (t.1 ++ [x], insert x t.2)) t := by
  intro ord t
  rw [List.foldl_flatten, List.foldl_map]
  have hstep : (fun (a : List Variable × Finset Variable) (f : Nat) =>
      DetermineInputsStep G f a) =
      fun b f => ((G.inputs f).filter (fun x => decide (¬ x.IsOutput))).foldl
        (fun t x => if x ∈ t.2 then t else (t.1 ++ [x], insert x t.2)) b := by
    funext a f
    exact foldl_det_eq_dedup (G.inputs f) a
  rw [hstep]

theorem dedup_foldl_spec :
    ∀ (l out : List Variable) (seen : Finset Variable), seen = out.toFinset → out.Nodup →
      (l.foldl (fun t x => if x ∈ t.2 then t else (t.1 ++ [x], insert x t.2))
        (out, seen)).1.Nodup ∧
      ∀ x, x ∈ (l.foldl (fun t x => if x ∈ t.2 then t else (t.1 ++ [x], insert x t.2))
        (out, seen)).1 ↔ x ∈ out ∨ x ∈ l := by
  intro l
  induction l with
  | nil =>
    intro out seen _ hnodup
    exact ⟨hnodup, fun x => by simp⟩
  | cons x xs ih =>
    intro out seen hseen hnodup
    simp only [List.foldl_cons]
    by_cases hmem : x ∈ seen
    · rw [if_pos hmem]
      obtain ⟨hnd, hmem'⟩ := ih out seen hseen hnodup
      refine ⟨hnd, fun y => ?_⟩
      rw [hmem' y]
      have hxout : x ∈ out := by
        rw [hseen] at hmem
        exact List.mem_toFinset.1 hmem
      simp only [List.mem_cons]
      constructor
      · rintro (h | h)
        · exact Or.inl h
        · exact Or.inr (Or.inr h)
      · rintro (h | rfl | h)
        · exact Or.inl h
        · exact Or.inl hxout
        · exact Or.inr h
    · rw [if_neg hmem]
      have hxout : x ∉ out := fun hc => hmem (hseen ▸ List.mem_toFinset.2 hc)
      have hseen' : insert x seen = (out ++ [x]).toFinset := by
        rw [hseen]
        ext y
        simp [or_comm]
      have hnodup' : (out ++ [x]).Nodup := by
        simp [List.nodup_append, hnodup, hxout]
      obtain ⟨hnd, hmemc⟩ := ih (out ++ [x]) (insert x seen) hseen' hnodup'
      refine ⟨hnd, fun y => ?_⟩
      rw [hmemc y]
      simp only [List.mem_append, List.mem_singleton, List.mem_cons]
      tauto

theorem firstDedup_nodup (l : List Variable) : (firstDedup l).Nodup :=
  (dedup_foldl_spec l [] ∅ (by simp) List.nodup_nil).1

theorem mem_firstDedup (l : List Variable) (x : Variable) :
    x ∈ firstDedup l ↔ x ∈ l := by
  have h := (dedup_foldl_spec l [] ∅ (by simp) List.nodup_nil).2 x
  simpa [firstDedup] using h

/-- `DetermineInputs` equals the first-occurrence deduplication of the
non-Output inputs of the visited nodes, concatenated in visit order. -/
theorem DetermineInputs_char {G : Graph} {fuel root : Nat} {visited : Finset Nat}
    {v' : Finset Nat} {ord : List Nat}
    (h : TraverseO G fuel root visited = some (v', ord)) :
    DetermineInputs G fuel root visited =
      some (firstDedup
        ((ord.map (fun f => (G.inputs f).filter (fun x => decide (¬ x.IsOutput)))).flatten)) := by
  unfold DetermineInputs
  rw [TraverseAux_fold fuel _ (DetermineInputsStep G) root visited ([], ∅)]
  unfold TraverseO at h
  rw [h]
  simp only [Option.map_map, Option.map_some', Function.comp]
  rw [show (ord.foldl (fun a f => DetermineInputsStep G f a) ([], ∅)) =
    ((ord.map (fun f => (G.inputs f).filter (fun x => decide (¬ x.IsOutput)))).flatten).foldl
      (fun t x => if x ∈ t.2 then t else (t.1 ++ [x], insert x t.2)) ([], ∅)
    from foldl_detStep_eq G ord ([], ∅)]
  rfl

theorem VarKind_ofNat_toNat (k : VarKind) : VarKind.ofNat? k.toNat = some k := by
  cases k <;> rfl

theorem decodeVariable_encodeVariable (v : Variable) :
    decodeVariable (encodeVariable v) = some v := by
  cases v with
  | mk uid k owner => cases k <;> rfl

theorem decodeList_map {α : Type} (d : DictValue → Option α) (e : α → DictValue)
    (he : ∀ x, d (e x) = some x) : ∀ l : List α, decodeList d (l.map e) = some l := by
  intro l
  induction l with
  | nil => rfl
  | cons x xs ih => simp [decodeList, he, ih]

theorem decodeNode_encodeNode (n : PrimitiveFunctionData) :
    decodeNode (encodeNode n) = some n := by
  cases n with
  | mk uid op inputs rng =>
    simp [encodeNode, decodeNode,
      decodeList_map decodeVariable encodeVariable decodeVariable_encodeVariable]

theorem decodeParamValue_encodeParamValue (p : Variable × Int) :
    decodeParamValue (encodeParamValue p) = some p := by
  cases p with
  | mk v i => simp [encodeParamValue, decodeParamValue, decodeVariable_encodeVariable]

theorem OnPlaceholdersReplaced_run {G : Graph} {σr : Variable → Variable}
    {U : Finset Nat} {fuel : Nat}
    (hU : UnivClosed G U) (hfuel : U.card + 2 ≤ fuel) :
    ∀ (replaced : List Variable) (owned : Finset Nat),
      (∀ ph ∈ replaced, (σr ph).kind = VarKind.output → (σr ph).owner ∈ U) →
      ∃ result, OnPlaceholdersReplaced G fuel σr replaced owned = some result ∧
        owned ⊆ result ∧
        (∀ ph ∈ replaced, (σr ph).kind = VarKind.output →
          ∀ x, Reachable G (σr ph).owner x → x ∈ result) ∧
        ((∀ ph ∈ replaced, (σr ph).kind ≠ VarKind.output) → result = owned) ∧
        (∀ x ∈ result, x ∈ owned ∨ ∃ ph ∈ replaced, (σr ph).kind = VarKind.output ∧
          Reachable G (σr ph).owner x) := by
  intro replaced
  induction replaced with
  | nil =>
    intro owned _
    exact ⟨owned, rfl, Finset.Subset.refl owned,
      fun ph hph => absurd hph (List.not_mem_nil ph),
      fun _ => rfl, fun x hx => Or.inl hx⟩
  | cons ph rest ih =>
    intro owned howners
    by_cases hk : (σr ph).kind = VarKind.output
    · obtain ⟨fns, hcol, hchar⟩ :=
        Collect_closure hU (howners ph (List.mem_cons_self _ _) hk) hfuel
      obtain ⟨result, hrun, hsub, hout, -, hexact⟩ :=
        ih (owned ∪ fns) (fun p hp => howners p (List.mem_cons_of_mem _ hp))
      refine ⟨result, ?_, ?_, ?_, ?_, ?_⟩
      · simp only [OnPlaceholdersReplaced]
        rw [if_pos hk, hcol]
        exact hrun
      · exact Finset.Subset.trans Finset.subset_union_left hsub
      · intro p hp hpk x hre
        rcases List.mem_cons.1 hp with rfl | hp'
        · exact hsub (Finset.mem_union_right _ ((hchar x).2 hre))
        · exact hout p hp' hpk x hre
      · intro hall
        exact absurd hk (hall ph (List.mem_cons_self _ _))
      · intro x hx
        rcases hexact x hx with hx' | ⟨p, hp, hpk, hre⟩
        · rcases Finset.mem_union.1 hx' with hx'' | hx''
          · exact Or.inl hx''
          · exact Or.inr ⟨ph, List.mem_cons_self _ _, hk, (hchar x).1 hx''⟩
        · exact Or.inr ⟨p, List.mem_cons_of_mem _ hp, hpk, hre⟩
    · obtain ⟨result, hrun, hsub, hout, hnone, hexact⟩ :=
        ih owned (fun p hp => howners p (List.mem_cons_of_mem _ hp))
      refine ⟨result, ?_, hsub, ?_, ?_, ?_⟩
      · simp only [OnPlaceholdersReplaced]
        rw [if_neg hk]
        exact hrun
      · intro p hp hpk x hre
        rcases List.mem_cons.1 hp with rfl | hp'
        · exact absurd hpk hk
        · exact hout p hp' hpk x hre
      · intro hall
        exact hnone (fun p hp => hall p (List.mem_cons_of_mem _ hp))
      · intro x hx
        rcases hexact x hx with hx' | ⟨p, hp, hpk, hre⟩
        · exact Or.inl hx'
        · exact Or.inr ⟨p, List.mem_cons_of_mem _ hp, hpk, hre⟩

theorem grafting_invariant {Gold : Graph} {σr : Variable → Variable}
    {replaced : List Variable} {owned result : Finset Nat} {root : Nat}
    (hroot : root ∈ owned)
    (hclosed : ∀ x ∈ owned, ∀ y ∈ succs Gold x, y ∈ owned)
    (hsub : owned ⊆ result)
    (hout : ∀ ph ∈ replaced, (σr ph).kind = VarKind.output →
      ∀ x, Reachable (substGraph Gold σr replaced) (σr ph).owner x → x ∈ result) :
    ∀ x, Reachable (substGraph Gold σr replaced) root x → x ∈ result := by
  intro x hx
  have hstep : ∀ f g, g ∈ succs (substGraph Gold σr replaced) f →
      (f ∈ owned ∨ ∃ ph ∈ replaced, (σr ph).kind = VarKind.output ∧
        Reachable (substGraph Gold σr replaced) (σr ph).owner f) →
      (g ∈ owned ∨ ∃ ph ∈ replaced, (σr ph).kind = VarKind.output ∧
        Reachable (substGraph Gold σr replaced) (σr ph).owner g) := by
    intro f g hg hPf
    obtain ⟨v', hv', hk', howner⟩ := mem_succs.1 hg
    have hv'' : v' ∈ (Gold.inputs f).map
        (fun v => if v ∈ replaced then σr v else v) := hv'
    obtain ⟨v, hv, hveq⟩ := List.mem_map.1 hv''
    by_cases hrep : v ∈ replaced
    · rw [if_pos hrep] at hveq
      subst hveq
      subst howner
      exact Or.inr ⟨v, hrep, hk', Reachable.refl _⟩
    · rw [if_neg hrep] at hveq
      subst hveq
      subst howner
      have hgold : v.owner ∈ succs Gold f := mem_succs.2 ⟨v, hv, hk', rfl⟩
      have hnewedge : v.owner ∈ succs (substGraph Gold σr replaced) f := by
        refine mem_succs.2 ⟨v, ?_, hk', rfl⟩
        show v ∈ (Gold.inputs f).map (fun v => if v ∈ replaced then σr v else v)
        exact List.mem_map.2 ⟨v, hv, by rw [if_neg hrep]⟩
      rcases hPf with hf | ⟨ph, hmem, hk, hre⟩
      · exact Or.inl (hclosed f hf _ hgold)
      · exact Or.inr ⟨ph, hmem, hk, Reachable.trans hre (Reachable.single hnewedge)⟩
  have hP : ∀ f y, Reachable (substGraph Gold σr replaced) f y →
      (f ∈ owned ∨ ∃ ph ∈ replaced, (σr ph).kind = VarKind.output ∧
        Reachable (substGraph Gold σr replaced) (σr ph).owner f) →
      (y ∈ owned ∨ ∃ ph ∈ replaced, (σr ph).kind = VarKind.output ∧
        Reachable (substGraph Gold σr replaced) (σr ph).owner y) := by
    intro f y h
    induction h with
    | refl => exact id
    | head hs _ ih => exact fun hf => ih (hstep _ _ hs hf)
  rcases hP root x hx (Or.inl hroot) with h | ⟨ph, hmem, hk, hre⟩
  · exact hsub h
  · exact hout ph hmem hk x hre

/-- C1: for every finite function graph (a closed finite universe `U`
containing the root, which subsumes every finite acyclic graph), given
enough fuel, `Collect(root, functions)` populates the set with exactly
the reachable closure of the root — sound (every collected node is
reachable along input-Variable Output→Owner edges) and complete (every
reachable node is collected) — and `Create(rootFunction)` stores exactly
this set as the composite's owned node set `m_allPrimitiveFunctions`. -/
theorem C1_collect_create_exact_closure
    {G : Graph} {U : Finset Nat} {fuel root : Nat}
    (hU : UnivClosed G U) (hroot : root ∈ U) (hfuel : U.card + 2 ≤ fuel) :
    ∃ fns, Collect G fuel root ∅ = some fns ∧
      (∀ x, x ∈ fns ↔ Reachable G root x) ∧
      CompositeFunction.Create G fuel root = some ⟨root, fns⟩ := by
  obtain ⟨fns, hcol, hchar⟩ := Collect_closure hU hroot hfuel
  exact ⟨fns, hcol, hchar, by simp [CompositeFunction.Create, hcol]⟩

theorem C1_collect_create_exact_closure_witness :
    UnivClosed exampleGraph {0, 1} ∧ (0 : Nat) ∈ ({0, 1} : Finset Nat) ∧
    ({0, 1} : Finset Nat).card + 2 ≤ 4 ∧
    ∃ fns, Collect exampleGraph 4 0 ∅ = some fns ∧
      (∀ x, x ∈ fns ↔ Reachable exampleGraph 0 x) ∧
      CompositeFunction.Create exampleGraph 4 0 = some ⟨0, fns⟩ :=
  ⟨by decide, by decide, by decide,
    @C1_collect_create_exact_closure exampleGraph {0, 1} 4 0
      (by decide) (by decide) (by decide)⟩

/-- C2 counterexample: the claim asserts the functor is never invoked
again on a node already in the externally supplied visited set,
including the root itself; but `Traverse` invokes the functor on the
root unconditionally.  With node 2 (no inputs) pre-populated in the
visited set, a counting functor is still invoked once (count 1, not the
0 the claim requires). -/
theorem C2_counterexample_root_reinvoked :
    (TraverseAux exampleGraph (fun _ n => n + 1) 2 2 (insert 2 ∅) 0).map Prod.snd =
      some 1 ∧
    (TraverseAux exampleGraph (fun _ n => n + 1) 2 2 (insert 2 ∅) 0).map Prod.snd ≠
      some 0 := by
  constructor <;> decide

/-- C2 (amended): `Traverse(root, visitedFunctions, functor)` invokes the
functor along a single visitor-independent sequence `root :: rest`; the
root is always invoked (even when it is already in the supplied visited
set), every other invoked node is invoked exactly once and was not in
the supplied set, each node in `rest` is forced by a previously invoked
parent (parent before its not-yet-visited input-producing nodes), and
when the visited set starts empty the invoked nodes are exactly the
reachable closure of the root. -/
theorem C2_traverse_visits_once
    {G : Graph} {U : Finset Nat} {fuel root : Nat} {visited0 : Finset Nat}
    (hU : UnivClosed G U) (hroot : root ∈ U)
    (hfuel : (U \ visited0).card + 2 ≤ fuel) :
    ∃ (v' : Finset Nat) (rest : List Nat),
      TraverseO G fuel root visited0 = some (v', root :: rest) ∧
      (∀ (σ' : Type) (φ : Nat → σ' → σ') (s : σ'),
        TraverseAux G φ fuel root visited0 s =
          some (v', (root :: rest).foldl (fun a f => φ f a) s)) ∧
      (root :: rest).Nodup ∧
      (∀ x ∈ rest, x ∉ visited0) ∧
      ChainOK G [root] rest ∧
      (visited0 = ∅ → ∀ x, x ∈ root :: rest ↔ Reachable G root x) := by
  obtain ⟨v', out, hrun, -⟩ :=
    @TraverseAux_success_of_card (List Nat) G (fun f ord => ord ++ [f]) U hU fuel root
      visited0 [] hroot hfuel
  obtain ⟨rest, hout, hv, hnd, hnotin⟩ := TraverseAux_ord fuel root visited0 [] v' out hrun
  have houtc : out = root :: rest := by simpa using hout
  obtain ⟨rest2, hout2, hchain⟩ := TraverseAux_chain fuel root visited0 [] v' out hrun
  have hrest2 : rest2 = rest := by
    rw [houtc] at hout2
    simpa using hout2.symm
  rw [hrest2] at hchain
  refine ⟨v', rest, ?_, ?_, ?_, ?_, hchain, ?_⟩
  · show TraverseAux G (fun f ord => ord ++ [f]) fuel root visited0 [] =
      some (v', root :: rest)
    rw [hrun, houtc]
  · intro σ' φ s
    rw [TraverseAux_fold fuel σ' φ root visited0 s, hrun, houtc]
    rfl
  · exact List.nodup_cons.2
      ⟨fun hc => hnotin root hc (Finset.mem_insert_self _ _), hnd⟩
  · exact fun x hx hv0 => hnotin x hx (Finset.mem_insert_of_mem hv0)
  · intro hempty x
    subst hempty
    constructor
    · intro hx
      have hxv : x ∈ v' := by
        rw [hv]
        rcases List.mem_cons.1 hx with rfl | hx'
        · exact Finset.mem_union_left _ (Finset.mem_insert_self _ _)
        · exact Finset.mem_union_right _ (List.mem_toFinset.2 hx')
      rcases TraverseAux_sound fuel root ∅ [] v' out hrun x hxv with hmem | hre
      · simp at hmem
      · exact hre
    · intro hre
      obtain ⟨hrootv, hinv⟩ := TraverseAux_closed fuel root ∅ [] v' out hrun
      have hcl : ∀ y ∈ v', SuccClosed G v' y := by
        intro y hy
        rcases hinv y hy with hm | hs
        · simp at hm
        · exact hs
      have hxv : x ∈ v' := reachable_mem_of_closed hcl hre hrootv
      rw [hv] at hxv
      rcases Finset.mem_union.1 hxv with hm | hm
      · rcases Finset.mem_insert.1 hm with rfl | hm'
        · exact List.mem_cons_self _ _
        · simp at hm'
      · exact List.mem_cons_of_mem _ (List.mem_toFinset.1 hm)

theorem C2_traverse_visits_once_witness :
    UnivClosed exampleGraph {0, 1} ∧ (0 : Nat) ∈ ({0, 1} : Finset Nat) ∧
    (({0, 1} : Finset Nat) \ ∅).card + 2 ≤ 4 ∧
    ∃ (v' : Finset Nat) (rest : List Nat),
      TraverseO exampleGraph 4 0 ∅ = some (v', 0 :: rest) ∧
      (∀ (σ' : Type) (φ : Nat → σ' → σ') (s : σ'),
        TraverseAux exampleGraph φ 4 0 ∅ s =
          some (v', (0 :: rest).foldl (fun a f => φ f a) s)) ∧
      (0 :: rest).Nodup ∧
      (∀ x ∈ rest, x ∉ (∅ : Finset Nat)) ∧
      ChainOK exampleGraph [0] rest ∧
      ((∅ : Finset Nat) = ∅ → ∀ x, x ∈ 0 :: rest ↔ Reachable exampleGraph 0 x) :=
  ⟨by decide, by decide, by decide,
    @C2_traverse_visits_once exampleGraph {0, 1} 4 0 ∅
      (by decide) (by decide) (by decide)⟩

/-- C3: `DetermineInputs(rootFunction, visitedFunctions)` returns the
sequence of input Variables that are not Outputs, in order of first
encounter under the traversal (the first-occurrence deduplication of the
non-Output inputs of the visited nodes, concatenated in visit order),
with each such Variable occurring exactly once, duplicates suppressed by
Variable identity. -/
theorem C3_determine_inputs_first_encounter
    {G : Graph} {U : Finset Nat} {fuel root : Nat} {visited0 : Finset Nat}
    (hU : UnivClosed G U) (hroot : root ∈ U)
    (hfuel : (U \ visited0).card + 2 ≤ fuel) :
    ∃ (v' : Finset Nat) (ord : List Nat) (inputs : List Variable),
      TraverseO G fuel root visited0 = some (v', ord) ∧
      DetermineInputs G fuel root visited0 = some inputs ∧
      inputs = firstDedup
        ((ord.map (fun f => (G.inputs f).filter (fun x => decide (¬ x.IsOutput)))).flatten) ∧
      inputs.Nodup ∧
      (∀ x ∈ inputs, ¬ x.IsOutput) ∧
      (∀ x, x ∈ inputs ↔ (¬ x.IsOutput ∧ ∃ f ∈ ord, x ∈ G.inputs f)) := by
  obtain ⟨v', out, hrun, -⟩ :=
    @TraverseAux_success_of_card (List Nat) G (fun f ord => ord ++ [f]) U hU fuel root
      visited0 [] hroot hfuel
  have hrunO : TraverseO G fuel root visited0 = some (v', out) := hrun
  have hdet := DetermineInputs_char hrunO
  refine ⟨v', out, _, hrunO, hdet, rfl, firstDedup_nodup _, ?_, ?_⟩
  · intro x hx
    have hmem := (mem_firstDedup _ x).1 hx
    simp only [List.mem_flatten, List.mem_map] at hmem
    obtain ⟨l, ⟨f, hf, rfl⟩, hxl⟩ := hmem
    have hfilter := List.mem_filter.1 hxl
    simpa using hfilter.2
  · intro x
    rw [mem_firstDedup]
    simp only [List.mem_flatten, List.mem_map]
    constructor
    · rintro ⟨l, ⟨f, hf, rfl⟩, hxl⟩
      obtain ⟨hmem, hp⟩ := List.mem_filter.1 hxl
      exact ⟨by simpa using hp, f, hf, hmem⟩
    · rintro ⟨hout, f, hf, hmem⟩
      exact ⟨_, ⟨f, hf, rfl⟩, List.mem_filter.2 ⟨hmem, by simpa using hout⟩⟩

theorem C3_determine_inputs_first_encounter_witness :
    UnivClosed exampleGraph {0, 1} ∧ (0 : Nat) ∈ ({0, 1} : Finset Nat) ∧
    (({0, 1} : Finset Nat) \ ∅).card + 2 ≤ 4 ∧
    ∃ (v' : Finset Nat) (ord : List Nat) (inputs : List Variable),
      TraverseO exampleGraph 4 0 ∅ = some (v', ord) ∧
      DetermineInputs exampleGraph 4 0 ∅ = some inputs ∧
      inputs = firstDedup
        ((ord.map (fun f =>
          (exampleGraph.inputs f).filter (fun x => decide (¬ x.IsOutput)))).flatten) ∧
      inputs.Nodup ∧
      (∀ x ∈ inputs, ¬ x.IsOutput) ∧
      (∀ x, x ∈ inputs ↔ (¬ x.IsOutput ∧ ∃ f ∈ ord, x ∈ exampleGraph.inputs f)) :=
  ⟨by decide, by decide, by decide,
    @C3_determine_inputs_first_encounter exampleGraph {0, 1} 4 0 ∅
      (by decide) (by decide) (by decide)⟩

/-- C8: `Traverse` terminates on every finite function graph: for any
finite universe `U` closed under input-producer edges and containing the
root, fuel beyond the number of not-yet-visited universe nodes suffices
for the fuel-indexed recursion to complete (the C++ recursion depth is
bounded the same way).  This covers, in particular, every finite acyclic
graph; no cyclic graph needs to be considered. -/
theorem C8_traverse_terminates
    {σ' : Type} {G : Graph} {U : Finset Nat} (fuel root : Nat)
    (visited : Finset Nat) (φ : Nat → σ' → σ') (s : σ')
    (hU : UnivClosed G U) (hroot : root ∈ U)
    (hfuel : (U \ visited).card + 2 ≤ fuel) :
    ∃ r, TraverseAux G φ fuel root visited s = some r := by
  obtain ⟨v', s', h, -⟩ := TraverseAux_success_of_card hU fuel root visited s hroot hfuel
  exact ⟨(v', s'), h⟩

theorem C8_traverse_terminates_witness :
    UnivClosed exampleGraph {0, 1} ∧ (0 : Nat) ∈ ({0, 1} : Finset Nat) ∧
    (({0, 1} : Finset Nat) \ ∅).card + 2 ≤ 4 ∧
    ∃ r, TraverseAux exampleGraph (fun f (l : List Nat) => f :: l) 4 0 ∅ [] = some r :=
  ⟨by decide, by decide, by decide,
    @C8_traverse_terminates (List Nat) exampleGraph {0, 1} 4 0 ∅
      (fun f l => f :: l) [] (by decide) (by decide) (by decide)⟩

/-- C4: after `OnPlaceholdersReplaced` runs on the substituted graph, for
every replaced placeholder whose replacement is an Output Variable the
entire reachable closure of the replacement's owning function has been
unioned into the owned node set; the owned set only grows; replacements
that are not Outputs leave it unchanged; and — the grafting invariant —
when the owned set previously contained the root and was closed under
the old graph's edges, every node reachable from the root in the
substituted graph is owned afterwards. -/
theorem C4_on_placeholders_replaced_grafting
    {Gold : Graph} {σr : Variable → Variable} {replaced : List Variable}
    {U : Finset Nat} {fuel : Nat} {owned : Finset Nat} {root : Nat}
    (hU : UnivClosed (substGraph Gold σr replaced) U)
    (howners : ∀ ph ∈ replaced, (σr ph).kind = VarKind.output → (σr ph).owner ∈ U)
    (hfuel : U.card + 2 ≤ fuel)
    (hroot : root ∈ owned)
    (hclosed : ∀ x ∈ owned, ∀ y ∈ succs Gold x, y ∈ owned) :
    ∃ result,
      OnPlaceholdersReplaced (substGraph Gold σr replaced) fuel σr replaced owned =
        some result ∧
      owned ⊆ result ∧
      (∀ ph ∈ replaced, (σr ph).kind = VarKind.output →
        ∀ x, Reachable (substGraph Gold σr replaced) (σr ph).owner x → x ∈ result) ∧
      ((∀ ph ∈ replaced, (σr ph).kind ≠ VarKind.output) → result = owned) ∧
      (∀ x ∈ result, x ∈ owned ∨ ∃ ph ∈ replaced, (σr ph).kind = VarKind.output ∧
        Reachable (substGraph Gold σr replaced) (σr ph).owner x) ∧
      (∀ x, Reachable (substGraph Gold σr replaced) root x → x ∈ result) := by
  obtain ⟨result, hrun, hsub, hout, hnone, hexact⟩ :=
    OnPlaceholdersReplaced_run hU hfuel replaced owned howners
  exact ⟨result, hrun, hsub, hout, hnone, hexact,
    grafting_invariant hroot hclosed hsub hout⟩

theorem C4_on_placeholders_replaced_grafting_witness :
    UnivClosed (substGraph exampleGraphPH exampleReplacement
      [⟨20, VarKind.placeholder, 0⟩]) {0, 1} ∧
    (∀ ph ∈ [(⟨20, VarKind.placeholder, 0⟩ : Variable)],
      (exampleReplacement ph).kind = VarKind.output →
        (exampleReplacement ph).owner ∈ ({0, 1} : Finset Nat)) ∧
    ({0, 1} : Finset Nat).card + 2 ≤ 4 ∧
    (0 : Nat) ∈ ({0} : Finset Nat) ∧
    (∀ x ∈ ({0} : Finset Nat), ∀ y ∈ succs exampleGraphPH x, y ∈ ({0} : Finset Nat)) ∧
    ∃ result,
      OnPlaceholdersReplaced
        (substGraph exampleGraphPH exampleReplacement [⟨20, VarKind.placeholder, 0⟩])
        4 exampleReplacement [⟨20, VarKind.placeholder, 0⟩] {0} = some result ∧
      ({0} : Finset Nat) ⊆ result ∧
      (∀ ph ∈ [(⟨20, VarKind.placeholder, 0⟩ : Variable)],
        (exampleReplacement ph).kind = VarKind.output →
        ∀ x, Reachable (substGraph exampleGraphPH exampleReplacement
          [⟨20, VarKind.placeholder, 0⟩]) (exampleReplacement ph).owner x →
          x ∈ result) ∧
      ((∀ ph ∈ [(⟨20, VarKind.placeholder, 0⟩ : Variable)],
        (exampleReplacement ph).kind ≠ VarKind.output) → result = {0}) ∧
      (∀ x ∈ result, x ∈ ({0} : Finset Nat) ∨
        ∃ ph ∈ [(⟨20, VarKind.placeholder, 0⟩ : Variable)],
          (exampleReplacement ph).kind = VarKind.output ∧
          Reachable (substGraph exampleGraphPH exampleReplacement
            [⟨20, VarKind.placeholder, 0⟩]) (exampleReplacement ph).owner x) ∧
      (∀ x, Reachable (substGraph exampleGraphPH exampleReplacement
        [⟨20, VarKind.placeholder, 0⟩]) 0 x → x ∈ result) :=
  ⟨by decide, by decide, by decide, by decide, by decide,
    @C4_on_placeholders_replaced_grafting exampleGraphPH exampleReplacement
      [⟨20, VarKind.placeholder, 0⟩] {0, 1} 4 {0} 0
      (by decide) (by decide) (by decide) (by decide) (by decide)⟩

/-- C5: `Backward` returns gradients exactly when the supplied state was
produced on the same graph and device and every snapshotted backprop-root
timestamp still equals the root's current forward timestamp; it fails
with a staleness error exactly when the state matches the graph and
device but some snapshotted timestamp differs from the current one. -/
theorem C5_backward_staleness
    (selfFunction selfDevice : Nat) (currentTimeStamps : Variable → Nat)
    (computeGradients : List (Variable × Int) → List (Variable × Int))
    (state : CNTKBackPropState) (rootGradientValues : List (Variable × Int)) :
    ((∃ g, Backward selfFunction selfDevice currentTimeStamps computeGradients state
        rootGradientValues = Except.ok g) ↔
      (state.function = selfFunction ∧ state.computeDevice = selfDevice ∧
        ∀ p ∈ state.BackpropRootsForwardTimeStamps, currentTimeStamps p.1 = p.2)) ∧
    (Backward selfFunction selfDevice currentTimeStamps computeGradients state
        rootGradientValues = Except.error "state is stale" ↔
      (state.function = selfFunction ∧ state.computeDevice = selfDevice ∧
        ¬ ∀ p ∈ state.BackpropRootsForwardTimeStamps, currentTimeStamps p.1 = p.2)) := by
  have hall : (state.BackpropRootsForwardTimeStamps.all
      (fun p => currentTimeStamps p.1 == p.2) = true) ↔
      ∀ p ∈ state.BackpropRootsForwardTimeStamps, currentTimeStamps p.1 = p.2 := by
    simp [List.all_eq_true]
  unfold Backward
  by_cases h1 : state.function ≠ selfFunction ∨ state.computeDevice ≠ selfDevice
  · rw [if_pos h1]
    have hne : ("state does not belong to this function and device" : String) ≠
        "state is stale" := by decide
    constructor
    · constructor
      · rintro ⟨g, hg⟩
        cases hg
      · rintro ⟨hf, hd, -⟩
        rcases h1 with h | h
        · exact absurd hf h
        · exact absurd hd h
    · constructor
      · intro hg
        exact absurd (Except.error.inj hg) hne
      · rintro ⟨hf, hd, -⟩
        rcases h1 with h | h
        · exact absurd hf h
        · exact absurd hd h
  · push_neg at h1
    obtain ⟨hf, hd⟩ := h1
    rw [if_neg (by simp [hf, hd])]
    by_cases h2 : state.BackpropRootsForwardTimeStamps.all
        (fun p => currentTimeStamps p.1 == p.2) = true
    · rw [if_pos h2]
      constructor
      · exact ⟨fun _ => ⟨hf, hd, hall.1 h2⟩,
          fun _ => ⟨computeGradients rootGradientValues, rfl⟩⟩
      · constructor
        · intro hg
          cases hg
        · rintro ⟨-, -, hnall⟩
          exact absurd (hall.1 h2) hnall
    · rw [if_neg h2]
      constructor
      · constructor
        · rintro ⟨g, hg⟩
          cases hg
        · rintro ⟨-, -, hts⟩
          exact absurd (hall.2 hts) h2
      · exact ⟨fun _ => ⟨hf, hd, fun hts => h2 (hall.2 hts)⟩, fun _ => rfl⟩

/-- C6: the cached compiled network is reused exactly when one exists and
the requested backprop-roots and outputs sets equal the recorded
`m_currentBackpropRoots` and `m_currentOutputs`; in particular a call
with outputs `{A}` followed by one with outputs `{A, B}` (with `B ≠ A`)
never reuses the network built for `{A}`. -/
theorem C6_network_reuse_requires_same_sets
    (cache cache0 : NetworkCacheState) (backpropRoots outputs : Finset Variable)
    (A B : Variable) (hAB : A ≠ B) :
    ((GetComputationNetwork cache backpropRoots outputs).1 = true ↔
      (cache.computationNetwork ≠ none ∧
        cache.currentBackpropRoots = backpropRoots ∧
        cache.currentOutputs = outputs)) ∧
    (GetComputationNetwork
      (GetComputationNetwork cache0 backpropRoots {A}).2 backpropRoots {A, B}).1 =
      false := by
  have hBA : B ∉ ({A} : Finset Variable) := by
    simp
    exact fun h => hAB h.symm
  have hne : ({A} : Finset Variable) ≠ {A, B} := by
    intro h
    have hBmem : B ∈ ({A, B} : Finset Variable) :=
      Finset.mem_insert_of_mem (Finset.mem_singleton_self B)
    exact hBA (h ▸ hBmem)
  constructor
  · unfold GetComputationNetwork
    cases hc : cache.computationNetwork with
    | none => simp
    | some net =>
      dsimp only
      by_cases hcond : cache.currentBackpropRoots = backpropRoots ∧
          cache.currentOutputs = outputs
      · rw [if_pos hcond]
        simp [hcond]
      · rw [if_neg hcond]
        constructor
        · intro hfalse
          simp at hfalse
        · rintro ⟨-, hr, ho⟩
          exact absurd ⟨hr, ho⟩ hcond
  · have hrec : (GetComputationNetwork cache0 backpropRoots {A}).2.currentOutputs =
        {A} ∧ ∃ n, (GetComputationNetwork cache0 backpropRoots {A}).2.computationNetwork
          = some n := by
      unfold GetComputationNetwork
      cases hc0 : cache0.computationNetwork with
      | none => exact ⟨rfl, 0, rfl⟩
      | some net =>
        dsimp only
        by_cases hcond : cache0.currentBackpropRoots = backpropRoots ∧
            cache0.currentOutputs = {A}
        · rw [if_pos hcond]
          exact ⟨hcond.2, net, hc0⟩
        · rw [if_neg hcond]
          exact ⟨rfl, net + 1, rfl⟩
    obtain ⟨houts, n, hnet⟩ := hrec
    have hgen : ∀ (c : NetworkCacheState) (n : Nat), c.computationNetwork = some n →
        c.currentOutputs = {A} →
        (GetComputationNetwork c backpropRoots {A, B}).1 = false := by
      intro c n hc hcouts
      unfold GetComputationNetwork
      rw [hc]
      dsimp only
      rw [if_neg (show ¬(c.currentBackpropRoots = backpropRoots ∧
          c.currentOutputs = {A, B}) from
        fun hcond => hne (by rw [← hcouts, hcond.2]))]
    exact hgen _ n hnet houts

theorem C6_network_reuse_requires_same_sets_witness :
    (⟨0, VarKind.input, 0⟩ : Variable) ≠ ⟨1, VarKind.input, 0⟩ ∧
    (((GetComputationNetwork ⟨none, ∅, ∅⟩ ∅
        {⟨0, VarKind.input, 0⟩}).1 = true ↔
      ((⟨none, ∅, ∅⟩ : NetworkCacheState).computationNetwork ≠ none ∧
        (⟨none, ∅, ∅⟩ : NetworkCacheState).currentBackpropRoots = ∅ ∧
        (⟨none, ∅, ∅⟩ : NetworkCacheState).currentOutputs =
          {⟨0, VarKind.input, 0⟩})) ∧
    (GetComputationNetwork
      (GetComputationNetwork ⟨none, ∅, ∅⟩ ∅ {⟨0, VarKind.input, 0⟩}).2 ∅
      {⟨0, VarKind.input, 0⟩, ⟨1, VarKind.input, 0⟩}).1 = false) :=
  ⟨by decide,
    C6_network_reuse_requires_same_sets ⟨none, ∅, ∅⟩ ⟨none, ∅, ∅⟩ ∅
      {⟨0, VarKind.input, 0⟩} ⟨0, VarKind.input, 0⟩ ⟨1, VarKind.input, 0⟩ (by decide)⟩

/-- C7: deserializing a serialized composite graph reproduces the graph
data exactly — identical node topology (root reference, node set,
per-node inputs and internal state) and equal parameter values; the
compiled-network caches are not part of the persisted data. -/
theorem C7_serialize_roundtrip (g : CompositeGraphData) :
    Deserialize (Serialize g) = some g := by
  cases g with
  | mk root nodes params =>
    simp [Serialize, Deserialize, s_serializationVersion,
      decodeList_map decodeNode encodeNode decodeNode_encodeNode,
      decodeList_map decodeParamValue encodeParamValue decodeParamValue_encodeParamValue]

/-- C9: `InternalDynamicAxisNameFromDynamicAxes` fails (with the fatal
construction error `LogicError("Empty dynamic axes set")`) exactly when
the dynamic-axes list is empty, and returns an axis name without error
exactly when the list is non-empty. -/
theorem C9_axis_name_error_iff_empty (dynamicAxes : List Axis) :
    ((∃ e, InternalDynamicAxisNameFromDynamicAxes dynamicAxes = Except.error e) ↔
      dynamicAxes = []) ∧
    ((∃ name, InternalDynamicAxisNameFromDynamicAxes dynamicAxes = Except.ok name) ↔
      dynamicAxes ≠ []) := by
  unfold InternalDynamicAxisNameFromDynamicAxes
  by_cases h : dynamicAxes = []
  · rw [if_pos h]
    constructor
    · exact ⟨fun _ => h, fun _ => ⟨"Empty dynamic axes set", rfl⟩⟩
    · constructor
      · rintro ⟨name, hname⟩
        cases hname
      · intro hne
        exact absurd h hne
  · rw [if_neg h]
    have hkey : ∃ name : String,
        (if dynamicAxes = [DefaultBatchAxis] then Except.ok InternalNoSequenceAxisName
          else if dynamicAxes = [DefaultDynamicAxis, DefaultBatchAxis] then
            Except.ok InternalDefaultDynamicAxisName
          else Except.ok (dynamicAxes.headD DefaultBatchAxis).name) =
        (Except.ok name : Except String String) := by
      by_cases h2 : dynamicAxes = [DefaultBatchAxis]
      · rw [if_pos h2]
        exact ⟨_, rfl⟩
      · rw [if_neg h2]
        by_cases h3 : dynamicAxes = [DefaultDynamicAxis, DefaultBatchAxis]
        · rw [if_pos h3]
          exact ⟨_, rfl⟩
        · rw [if_neg h3]
          exact ⟨_, rfl⟩
    obtain ⟨name, hname⟩ := hkey
    rw [hname]
    constructor
    · constructor
      · rintro ⟨e, he⟩
        cases he
      · intro h0
        exact absurd h0 h
    · exact ⟨fun _ => h, fun _ => ⟨name, rfl⟩⟩

/-- C10: the internal-axis-name encoding round-trips: the lists
`[DefaultBatchAxis]` and `[DefaultDynamicAxis, DefaultBatchAxis]`, and
any list `[a, DefaultBatchAxis]` whose custom axis name does not begin
with either reserved internal prefix, are reproduced exactly by
`DynamicAxesFromInternalDynamicAxisName` after
`InternalDynamicAxisNameFromDynamicAxes`. -/
theorem C10_axis_name_roundtrip (a : Axis)
    (h1 : strStartsWith a.name InternalDefaultDynamicAxisName = false)
    (h2 : strStartsWith a.name InternalNoSequenceAxisName = false) :
    ((InternalDynamicAxisNameFromDynamicAxes [DefaultBatchAxis]).map
        DynamicAxesFromInternalDynamicAxisName = Except.ok [DefaultBatchAxis]) ∧
    ((InternalDynamicAxisNameFromDynamicAxes [DefaultDynamicAxis, DefaultBatchAxis]).map
        DynamicAxesFromInternalDynamicAxisName =
        Except.ok [DefaultDynamicAxis, DefaultBatchAxis]) ∧
    ((InternalDynamicAxisNameFromDynamicAxes [a, DefaultBatchAxis]).map
        DynamicAxesFromInternalDynamicAxisName = Except.ok [a, DefaultBatchAxis]) := by
  refine ⟨by decide, by decide, ?_⟩
  by_cases ha : a = DefaultDynamicAxis
  · subst ha
    decide
  · have hne1 : ([a, DefaultBatchAxis] : List Axis) ≠ [] := by simp
    have hne2 : ([a, DefaultBatchAxis] : List Axis) ≠ [DefaultBatchAxis] := by simp
    have hne3 : ([a, DefaultBatchAxis] : List Axis) ≠
        [DefaultDynamicAxis, DefaultBatchAxis] := by simp [ha]
    unfold InternalDynamicAxisNameFromDynamicAxes
    rw [if_neg hne1, if_neg hne2, if_neg hne3]
    show Except.ok (DynamicAxesFromInternalDynamicAxisName
      (([a, DefaultBatchAxis].headD DefaultBatchAxis).name)) = _
    unfold DynamicAxesFromInternalDynamicAxisName
    rw [if_neg (by simp [h1]), if_neg (by simp [h2])]
    cases a with
    | mk nm => rfl

theorem C10_axis_name_roundtrip_witness :
    strStartsWith (Axis.mk "myAxis").name InternalDefaultDynamicAxisName = false ∧
    strStartsWith (Axis.mk "myAxis").name InternalNoSequenceAxisName = false ∧
    (((InternalDynamicAxisNameFromDynamicAxes [DefaultBatchAxis]).map
        DynamicAxesFromInternalDynamicAxisName = Except.ok [DefaultBatchAxis]) ∧
    ((InternalDynamicAxisNameFromDynamicAxes [DefaultDynamicAxis, DefaultBatchAxis]).map
        DynamicAxesFromInternalDynamicAxisName =
        Except.ok [DefaultDynamicAxis, DefaultBatchAxis]) ∧
    ((InternalDynamicAxisNameFromDynamicAxes [Axis.mk "myAxis", DefaultBatchAxis]).map
        DynamicAxesFromInternalDynamicAxisName =
        Except.ok [Axis.mk "myAxis", DefaultBatchAxis])) :=
  ⟨by decide, by decide,
    C10_axis_name_roundtrip (Axis.mk "myAxis") (by decide) (by decide)⟩

end CNTK

